import Mathlib

/-!
Shallow embedding of the hulk footstep-planner core (step_planning and
geometry crates) and proofs about it.  Numeric code operating on `f32`/`f64`
is embedded over a linear ordered field `K` (instantiated at `ℝ` for the
analytic statements and at `ℚ` for concrete evaluations); transcendental
primitives (`cos`, `sin`, `sqrt`, `atan2`, `floor`, `π`, `powf`) the Rust
code takes from the float runtime are passed to the definitions as explicit
parameters so that every definition stays computable.
-/

namespace Hulk

variable {K : Type} [LinearOrderedField K]

/-- Transcendental primitives of the float runtime, passed explicitly:
`pi`, `cos`, `sin`, `sqrt`, `atan2 y x` and the floor used by `rem_euclid`. -/
structure Prims (K : Type) where
  pi : K
  cos : K → K
  sin : K → K
  sqrt : K → K
  atan2 : K → K → K
  flr : K → ℤ

/-- 2D vector as a pair, mirroring `nalgebra::Vector2` / `Point2`. -/
def Vec2 (K : Type) : Type := K × K

/-- Dot product of two 2D vectors. -/
def dot (a b : Vec2 K) : K := a.1 * b.1 + a.2 * b.2

/-- `norm_squared` of a 2D vector. -/
def normSq (v : Vec2 K) : K := v.1 * v.1 + v.2 * v.2

/-- Vector subtraction. -/
def vsub (a b : Vec2 K) : Vec2 K := (a.1 - b.1, a.2 - b.2)

/-- Vector addition. -/
def vadd (a b : Vec2 K) : Vec2 K := (a.1 + b.1, a.2 + b.2)

/-- Scalar multiple of a vector. -/
def smul (t : K) (v : Vec2 K) : Vec2 K := (t * v.1, t * v.2)

/-- `crates/step_planning/src/utils/smoothmin.rs`: `smoothmin`. -/
def smoothmin (x mx smoothness : K) : K :=
  if x < mx - smoothness then x + smoothness * (1 / 2)
  else if x < mx then mx - (mx - x) ^ 2 / (smoothness * 2)
  else mx

/-- `crates/step_planning/src/utils/smoothmin.rs`: `smoothmin_derivative`. -/
def smoothmin_derivative (x mx smoothness : K) : K :=
  if x < mx - smoothness then 1
  else if x < mx then 2 * (mx - x) / (smoothness * 2)
  else 0

/-- `types::support_foot::Side` (also `step_planning geometry/pose.rs`). -/
inductive Side : Type
  | Left
  | Right
deriving DecidableEq

/-- `Side::opposite`. -/
def Side.opposite : Side → Side
  | Side.Left => Side.Right
  | Side.Right => Side.Left

/-- `step_plan.rs`: `Step<T>`. -/
structure Step (K : Type) where
  forward : K
  left : K
  turn : K

/-- `step_size.rs`: `StepAndSupportFoot<T>`. -/
structure StepAndSupportFoot (K : Type) where
  step : Step K
  support_foot : Side

/-- `step_size.rs`: `WalkVolumeCoefficients`. -/
structure WalkVolumeCoefficients (K : Type) where
  forward_cost : K
  backward_cost : K
  outward_cost : K
  inward_cost : K
  outward_rotation_cost : K
  inward_rotation_cost : K
  translation_exponent : K
  rotation_exponent : K

/-- `step_size.rs`: `WalkVolumeExtents`. -/
structure WalkVolumeExtents (K : Type) where
  forward : K
  backward : K
  outward : K
  inward : K
  outward_rotation : K
  inward_rotation : K

/-- `step_size.rs`: `WalkVolumeCoefficients::from_extents_and_exponents`
(coefficients are the reciprocals of the extents). -/
def WalkVolumeCoefficients.from_extents_and_exponents (e : WalkVolumeExtents K)
    (translation_exponent rotation_exponent : K) : WalkVolumeCoefficients K :=
  { forward_cost := 1 / e.forward
    backward_cost := 1 / e.backward
    outward_cost := 1 / e.outward
    inward_cost := 1 / e.inward
    outward_rotation_cost := 1 / e.outward_rotation
    inward_rotation_cost := 1 / e.inward_rotation
    translation_exponent := translation_exponent
    rotation_exponent := rotation_exponent }

/-- `step_size.rs`: `positive_negative` (`is_sign_positive` on reals is `0 ≤ value`). -/
def positive_negative (value positive negative : K) : K :=
  if 0 ≤ value then positive else negative

/-- `step_size.rs`: `WalkVolumeCoefficients::costs`. -/
def WalkVolumeCoefficients.costs (c : WalkVolumeCoefficients K)
    (s : StepAndSupportFoot K) : Step K :=
  let sel :=
    match s.support_foot with
    | Side.Left =>
        (c.inward_cost, c.outward_cost, c.outward_rotation_cost, c.inward_rotation_cost)
    | Side.Right =>
        (c.outward_cost, c.inward_cost, c.inward_rotation_cost, c.outward_rotation_cost)
  { forward := positive_negative s.step.forward c.forward_cost c.backward_cost
    left := positive_negative s.step.left sel.1 sel.2.1
    turn := positive_negative s.step.turn sel.2.2.1 sel.2.2.2 }

/-- `step_size.rs`: `walk_volume`; `rp` is the float runtime's `powf`. -/
def walk_volume (rp : K → K → K) (s : StepAndSupportFoot K)
    (c : WalkVolumeCoefficients K) : K :=
  let costs := c.costs s
  let normalized_forward := s.step.forward * costs.forward
  let normalized_left := s.step.left * costs.left
  let normalized_turn := s.step.turn * costs.turn
  rp (rp |normalized_forward| c.translation_exponent
      + rp |normalized_left| c.translation_exponent)
    (c.rotation_exponent / c.translation_exponent)
    + rp |normalized_turn| c.rotation_exponent

/-- `step_size.rs`: `walk_volume_gradient`. -/
def walk_volume_gradient (rp : K → K → K) (s : StepAndSupportFoot K)
    (c : WalkVolumeCoefficients K) : Step K :=
  let costs := c.costs s
  let normalized_forward := |s.step.forward * costs.forward|
  let normalized_left := |s.step.left * costs.left|
  let normalized_turn := |s.step.turn * costs.turn|
  let normalized_forward_powf_t := rp normalized_forward c.translation_exponent
  let normalized_left_powf_t := rp normalized_left c.translation_exponent
  let normalized_turn_powf_r := rp normalized_turn c.rotation_exponent
  let translation_norm :=
    rp (rp normalized_forward c.translation_exponent
        + rp normalized_left c.translation_exponent)
      ((c.rotation_exponent - c.translation_exponent) / c.translation_exponent)
  { forward :=
      if s.step.forward = 0 then 0
      else
        c.rotation_exponent * costs.forward ^ 2 * s.step.forward * translation_norm
          * normalized_forward_powf_t / normalized_forward ^ 2
    left :=
      if s.step.left = 0 then 0
      else
        c.rotation_exponent * costs.left ^ 2 * s.step.left * translation_norm
          * normalized_left_powf_t / normalized_left ^ 2
    turn :=
      if s.step.turn = 0 then 0
      else
        c.rotation_exponent * costs.turn ^ 2 * s.step.turn
          * normalized_turn_powf_r / normalized_turn ^ 2 }

/-- `step_size.rs`: `penalty_function` (`powi(6)`). -/
def penalty_function (walk_volume_value : K) : K := walk_volume_value ^ 6

/-- `step_size.rs`: `penalty_function_derivative`. -/
def penalty_function_derivative (walk_volume_value : K) : K :=
  walk_volume_value ^ 5 * 6

/-- `step_plan.rs`: `Step * scalar` (componentwise). -/
def Step.scale (s : Step K) (rhs : K) : Step K :=
  { forward := s.forward * rhs, left := s.left * rhs, turn := s.turn * rhs }

/-- `step_size.rs`: `StepSizeField::loss`. -/
def stepSizeLoss (rp : K → K → K) (c : WalkVolumeCoefficients K)
    (s : StepAndSupportFoot K) : K :=
  penalty_function (walk_volume rp s c)

/-- `step_size.rs`: `StepSizeField::grad`. -/
def stepSizeGrad (rp : K → K → K) (c : WalkVolumeCoefficients K)
    (s : StepAndSupportFoot K) : Step K :=
  (walk_volume_gradient rp s c).scale
    (penalty_function_derivative (walk_volume rp s c))

/-- Modelled from the spec: the `num_dual` forward-mode dual-number carrier
(`DualVec` restricted to one derivative direction): a value together with its
derivative. -/
structure Dual (K : Type) where
  re : K
  du : K

/-- Modelled from the spec: lifting a constant into the dual carrier (zero
derivative part). -/
def Dual.const (x : K) : Dual K := ⟨x, 0⟩

/-- Modelled from the spec: dual addition. -/
def dadd (a b : Dual K) : Dual K := ⟨a.re + b.re, a.du + b.du⟩

/-- Modelled from the spec: dual multiplication (product rule). -/
def dmul (a b : Dual K) : Dual K := ⟨a.re * b.re, a.re * b.du + b.re * a.du⟩

/-- Modelled from the spec: the sign factor of the float `signum` on reals
(`signum 0 = 1` as for IEEE `+0.0`). -/
def sgn (x : K) : K := if 0 ≤ x then 1 else -1

/-- Modelled from the spec: dual absolute value (`|a|` with derivative
`da · signum a`). -/
def dabs (a : Dual K) : Dual K := ⟨|a.re|, a.du * sgn a.re⟩

/-- Modelled from the spec: dual `powf` with a constant exponent
(`a^e` with derivative `da · e · a^(e−1)`). -/
def dpowf (rp : K → K → K) (a : Dual K) (e : K) : Dual K :=
  ⟨rp a.re e, a.du * e * rp a.re (e - 1)⟩

/-- Modelled from the spec: dual `powi(6)` (`a^6` with derivative `da · 6 · a^5`). -/
def dpowi6 (a : Dual K) : Dual K := ⟨a.re ^ 6, a.du * 6 * a.re ^ 5⟩

/-- `walk_volume` evaluated in dual arithmetic: the same expression chain as
`step_size.rs::walk_volume`, each operation replaced by its dual counterpart;
coefficient selection reads the value parts. -/
def dual_walk_volume (rp : K → K → K) (f l t : Dual K) (foot : Side)
    (c : WalkVolumeCoefficients K) : Dual K :=
  let costs := c.costs ⟨⟨f.re, l.re, t.re⟩, foot⟩
  let normalized_forward := dmul f (Dual.const costs.forward)
  let normalized_left := dmul l (Dual.const costs.left)
  let normalized_turn := dmul t (Dual.const costs.turn)
  dadd
    (dpowf rp
      (dadd (dpowf rp (dabs normalized_forward) c.translation_exponent)
        (dpowf rp (dabs normalized_left) c.translation_exponent))
      (c.rotation_exponent / c.translation_exponent))
    (dpowf rp (dabs normalized_turn) c.rotation_exponent)

/-- `StepSizeField::loss` evaluated in dual arithmetic
(`penalty_function` is `powi(6)`). -/
def dual_step_size_loss (rp : K → K → K) (f l t : Dual K) (foot : Side)
    (c : WalkVolumeCoefficients K) : Dual K :=
  dpowi6 (dual_walk_volume rp f l t foot c)

/-- `step_planning geometry/pose.rs`: `Pose<T>`. -/
structure Pose (K : Type) where
  position : Vec2 K
  orientation : K

/-- `pose.rs`: `PoseAndSupportFoot<T>`. -/
structure PoseAndSupportFoot (K : Type) where
  pose : Pose K
  support_foot : Side

/-- `pose.rs`: `impl Add<Step<T>> for Pose<T>`:
`position + Rotation2::new(orientation) * (forward, left)`,
`orientation + turn`. -/
def poseAdd (cosf sinf : K → K) (p : Pose K) (s : Step K) : Pose K :=
  { position :=
      vadd p.position
        (cosf p.orientation * s.forward - sinf p.orientation * s.left,
         sinf p.orientation * s.forward + cosf p.orientation * s.left)
    orientation := p.orientation + s.turn }

/-- `step_plan.rs`: `PlannedStep<T>` (pose reached after the step, and the
step tagged with its support foot). -/
structure PlannedStep (K : Type) where
  pose : Pose K
  step : StepAndSupportFoot K

/-- `step_plan.rs`: `StepPlan::steps` (`chunks_exact(3)` over the flat
parameter vector; the trailing remainder is dropped). -/
def stepPlanSteps : List K → List (Step K)
  | a :: b :: c :: rest => ⟨a, b, c⟩ :: stepPlanSteps rest
  | _ => []

/-- `step_plan.rs`: `StepPlanning::planned_steps`: scan over the steps,
adding each step to the running pose, recording the post-step pose with the
pre-flip support foot, then flipping the support foot. -/
def planned_steps (cosf sinf : K → K) (init : PoseAndSupportFoot K) :
    List (Step K) → List (PlannedStep K)
  | [] => []
  | s :: rest =>
      let p := poseAdd cosf sinf init.pose s
      ⟨p, ⟨s, init.support_foot⟩⟩ ::
        planned_steps cosf sinf ⟨p, init.support_foot.opposite⟩ rest

/-- `crates/geometry/src/direction.rs`: `Direction`. -/
inductive Direction : Type
  | Clockwise
  | Counterclockwise
  | Colinear
deriving DecidableEq

/-- `direction.rs`: `Direction::angle_sign`. -/
def Direction.angle_sign : Direction → K
  | Direction.Clockwise => -1
  | Direction.Counterclockwise => 1
  | Direction.Colinear => 0

/-- `step_planning geometry/angle.rs`: `Angle::normalized`
(`rem_euclid(two_pi)`, i.e. `x − 2π·⌊x/2π⌋`). -/
def normalizedAngle (P : Prims K) (x : K) : K :=
  x - (P.flr (x / (2 * P.pi)) : ℤ) * (2 * P.pi)

/-- `angle.rs`: `Angle::angle_to`: `((to − self) · direction.angle_sign).normalized()`. -/
def angle_to (P : Prims K) (a b : K) (d : Direction) : K :=
  normalizedAngle P ((b - a) * Direction.angle_sign d)

/-- `step_planning geometry/path.rs`: `Circle`. -/
structure Circle (K : Type) where
  center : Vec2 K
  radius : K

/-- `path.rs`: `Circle::point_at_angle`: `center + (cos θ, sin θ) · radius`. -/
def point_at_angle (P : Prims K) (c : Circle K) (θ : K) : Vec2 K :=
  vadd c.center (P.cos θ * c.radius, P.sin θ * c.radius)

/-- `path.rs`: `Circle::tangent` (the radial direction rotated 90° by the
direction; the colinear case follows `Direction::rotate_vector_90_degrees`,
which leaves the vector unchanged). -/
def Circle.tangent (P : Prims K) (_c : Circle K) (θ : K) (d : Direction) : Vec2 K :=
  let radial : Vec2 K := (P.cos θ, P.sin θ)
  match d with
  | Direction.Clockwise => (radial.2, -radial.1)
  | Direction.Counterclockwise => (-radial.2, radial.1)
  | Direction.Colinear => radial

/-- `path.rs` / `crates/geometry/src/arc.rs`: `Arc` (`stop` is the source's
`end`, which is a reserved word here). -/
structure Arc (K : Type) where
  circle : Circle K
  start : K
  stop : K
  direction : Direction

/-- `arc.rs` / `path.rs`: `ArcProjectionKind`. -/
inductive ArcProjectionKind : Type
  | OnArc
  | Start
  | End
deriving DecidableEq

/-- `arc.rs` / `path.rs`: `Arc::classify_point`. -/
def Arc.classify_point (P : Prims K) (arc : Arc K) (p : Vec2 K) : ArcProjectionKind :=
  let center_to_point := vsub p arc.circle.center
  let angle := P.atan2 center_to_point.2 center_to_point.1
  let angle_to_end := angle_to P arc.start arc.stop arc.direction
  let angle_to_point := angle_to P arc.start angle arc.direction
  if angle_to_point < angle_to_end then ArcProjectionKind.OnArc
  else
    let start_point := point_at_angle P arc.circle arc.start
    let end_point := point_at_angle P arc.circle arc.stop
    if normSq (vsub p start_point) < normSq (vsub p end_point) then
      ArcProjectionKind.Start
    else ArcProjectionKind.End

/-- `arc.rs`: `Arc::length` (also `traits/length.rs` for the planner's arc):
`angle_to(start, end, direction) · radius`. -/
def Arc.length (P : Prims K) (arc : Arc K) : K :=
  angle_to P arc.start arc.stop arc.direction * arc.circle.radius

/-- `nalgebra` `normalize`: `v / ‖v‖` componentwise. -/
def normalize (P : Prims K) (v : Vec2 K) : Vec2 K :=
  (v.1 / P.sqrt (normSq v), v.2 / P.sqrt (normSq v))

/-- `path.rs`: `LineSegment` (tuple struct; `p0`/`p1` are the source's
`self.0`/`self.1`). -/
structure LineSegment (K : Type) where
  p0 : Vec2 K
  p1 : Vec2 K

/-- `traits/project.rs`: `impl Project for LineSegment`:
`t = (p − start)·dir / ‖dir‖²` clamped to `[0, 1]`. -/
def LineSegment.project (seg : LineSegment K) (p : Vec2 K) : Vec2 K :=
  let direction := vsub seg.p1 seg.p0
  let v := vsub p seg.p0
  let t := dot v direction / normSq direction
  vadd seg.p0 (smul (min (max t 0) 1) direction)

/-- `traits/length.rs`: `impl Length for LineSegment`. -/
def LineSegment.length (P : Prims K) (seg : LineSegment K) : K :=
  P.sqrt (normSq (vsub seg.p1 seg.p0))

/-- `traits/project.rs`: `impl Project for Arc`. -/
def Arc.project (P : Prims K) (arc : Arc K) (p : Vec2 K) : Vec2 K :=
  match arc.classify_point P p with
  | ArcProjectionKind.OnArc =>
      let center_to_point := vsub p arc.circle.center
      vadd arc.circle.center (smul arc.circle.radius (normalize P center_to_point))
  | ArcProjectionKind.Start => point_at_angle P arc.circle arc.start
  | ArcProjectionKind.End => point_at_angle P arc.circle arc.stop

/-- `traits/path_progress.rs`: `impl PathProgress for LineSegment` (`progress`). -/
def LineSegment.progress (P : Prims K) (seg : LineSegment K) (p : Vec2 K) : K :=
  dot (vsub p seg.p0) (normalize P (vsub seg.p1 seg.p0))

/-- `traits/path_progress.rs`: `impl PathProgress for Arc` (`progress`). -/
def Arc.progress (P : Prims K) (arc : Arc K) (p : Vec2 K) : K :=
  match arc.classify_point P p with
  | ArcProjectionKind.OnArc =>
      let center_to_point := vsub p arc.circle.center
      let angle := P.atan2 center_to_point.2 center_to_point.1
      arc.circle.radius * angle_to P arc.start angle arc.direction
  | ArcProjectionKind.Start =>
      let start_point := point_at_angle P arc.circle arc.start
      dot (vsub p start_point) (arc.circle.tangent P arc.start arc.direction)
  | ArcProjectionKind.End =>
      let end_point := point_at_angle P arc.circle arc.stop
      arc.length P + dot (vsub p end_point) (arc.circle.tangent P arc.stop arc.direction)

/-- `path.rs`: `PathSegment`. -/
inductive PathSegment (K : Type) : Type
  | line (seg : LineSegment K)
  | arc (a : Arc K)

/-- `path.rs`: `Path`. -/
structure Path (K : Type) where
  segments : List (PathSegment K)

/-- `traits/project.rs`: `impl Project for PathSegment`. -/
def PathSegment.project (P : Prims K) : PathSegment K → Vec2 K → Vec2 K
  | PathSegment.line seg, p => seg.project p
  | PathSegment.arc a, p => a.project P p

/-- `traits/length.rs`: `impl Length for PathSegment`. -/
def PathSegment.length (P : Prims K) : PathSegment K → K
  | PathSegment.line seg => seg.length P
  | PathSegment.arc a => a.length P

/-- `traits/path_progress.rs`: `impl PathProgress for PathSegment` (`progress`). -/
def PathSegment.progress (P : Prims K) : PathSegment K → Vec2 K → K
  | PathSegment.line seg, p => seg.progress P p
  | PathSegment.arc a, p => a.progress P p

/-- Rust `Iterator::min_by` on a keyed list: left fold that replaces the
accumulator only on a strictly smaller key, so the first minimum wins;
`none` on the empty list. -/
def minByKeyFirst {α : Type} (key : α → K) : List α → Option α
  | [] => none
  | x :: xs => some (xs.foldl (fun acc y => if key y < key acc then y else acc) x)

/-- `traits/project.rs`: `impl Project for Path`: per-segment
`(projection, squared distance)` pairs, `min_by` on the squared distance
(`total_cmp` is the real order), returning the projection; the source panics
on an empty path, modelled as `none`. -/
def Path.project (P : Prims K) (path : Path K) (p : Vec2 K) : Option (Vec2 K) :=
  (minByKeyFirst Prod.snd
      (path.segments.map fun segment =>
        (PathSegment.project P segment p,
          normSq (vsub (PathSegment.project P segment p) p)))).map
    Prod.fst

/-- `traits/path_progress.rs`: the scan state of `impl PathProgress for Path`:
triples `(progress before this segment, segment, squared distance)`. -/
def progressTriples (P : Prims K) (p : Vec2 K) :
    List (PathSegment K) → K → List (K × PathSegment K × K)
  | [], _ => []
  | seg :: rest, acc =>
      (acc, seg, normSq (vsub (PathSegment.project P seg p) p)) ::
        progressTriples P p rest (acc + seg.length P)

/-- `traits/path_progress.rs`: `impl PathProgress for Path` (`progress`):
`min_by` on squared distance over the scan, then
`progress_before_segment_start + segment.progress(point)`. -/
def Path.progress (P : Prims K) (path : Path K) (p : Vec2 K) : Option K :=
  (minByKeyFirst (fun tri => tri.2.2) (progressTriples P p path.segments 0)).map
    fun tri => tri.1 + PathSegment.progress P tri.2.1 p

/-- The float runtime's primitives, pinned to their real-analysis meanings:
`π`, `cos`, `sin`, `sqrt`, `atan2 y x = Complex.arg (x + y·i)`, and the
integer floor. -/
def RealPrims (P : Prims ℝ) : Prop :=
  P.pi = Real.pi ∧ P.cos = Real.cos ∧ P.sin = Real.sin ∧ P.sqrt = Real.sqrt ∧
    (∀ y x, P.atan2 y x = Complex.arg ⟨x, y⟩) ∧ ∀ y, P.flr y = ⌊y⌋

/-- The point set of a `LineSegment`: `start + u·(end − start)` for
`u ∈ [0, 1]`. -/
def LineSegment.contains (seg : LineSegment K) (q : Vec2 K) : Prop :=
  ∃ u : K, 0 ≤ u ∧ u ≤ 1 ∧ q = vadd seg.p0 (smul u (vsub seg.p1 seg.p0))

/-- The point set of an `Arc`: circle points whose angle, measured from
`start` in the arc's direction, does not exceed the sweep. -/
def Arc.contains (P : Prims K) (arc : Arc K) (q : Vec2 K) : Prop :=
  ∃ φ : K, angle_to P arc.start φ arc.direction ≤
      angle_to P arc.start arc.stop arc.direction ∧
    q = point_at_angle P arc.circle φ

/-- The point set of a `PathSegment`. -/
def PathSegment.containsPt (P : Prims K) : PathSegment K → Vec2 K → Prop
  | PathSegment.line seg, q => seg.contains q
  | PathSegment.arc a, q => a.contains P q

/-! ## Helper lemmas -/

theorem planned_steps_length (cosf sinf : K → K) (init : PoseAndSupportFoot K)
    (L : List (Step K)) :
    (planned_steps cosf sinf init L).length = L.length := by
  induction L generalizing init with
  | nil => rfl
  | cons s rest ih => simp [planned_steps, ih]

theorem planned_steps_cons (cosf sinf : K → K) (init : PoseAndSupportFoot K)
    (s : Step K) (rest : List (Step K)) :
    planned_steps cosf sinf init (s :: rest) =
      ⟨poseAdd cosf sinf init.pose s, ⟨s, init.support_foot⟩⟩ ::
        planned_steps cosf sinf
          ⟨poseAdd cosf sinf init.pose s, init.support_foot.opposite⟩ rest := rfl

theorem planned_steps_succ (cosf sinf : K → K) (L : List (Step K)) :
    ∀ (init : PoseAndSupportFoot K) (k : ℕ) (x y : PlannedStep K),
      (planned_steps cosf sinf init L).get? k = some x →
      (planned_steps cosf sinf init L).get? (k + 1) = some y →
      y.step.support_foot = x.step.support_foot.opposite ∧
        ∀ s : Step K, L.get? (k + 1) = some s →
          y.pose = poseAdd cosf sinf x.pose s ∧ y.step.step = s := by
  induction L with
  | nil =>
    intro init k x y hx _
    simp [planned_steps] at hx
  | cons s rest ih =>
    intro init k x y hx hy
    rw [planned_steps_cons] at hx hy
    match k with
    | 0 =>
      simp only [List.get?] at hx hy
      cases hx
      match rest, hy with
      | s' :: rest', hy =>
        rw [planned_steps_cons] at hy
        simp only [List.get?] at hy
        cases hy
        refine ⟨rfl, ?_⟩
        intro s'' hs
        simp only [List.get?] at hs
        cases hs
        exact ⟨rfl, rfl⟩
    | k + 1 =>
      simp only [List.get?] at hx hy
      exact ih _ k x y hx hy

/-! ## Claim theorems -/

/-- Claim C2: every rollout produced by `StepPlanning::planned_steps` has as
many planned steps as the plan has steps, its first planned step carries the
initial support foot and the pose `initial_pose + step[0]`, and each later
planned step carries the opposite of the previous one's support foot and the
pose `pose[k−1] + step[k]`, where pose-plus-step rotates `(forward, left)` by
the pre-step orientation and adds `turn` to the orientation. -/
theorem planned_steps_rollout (cosf sinf : K → K) (init : PoseAndSupportFoot K)
    (flat : List K) (k : ℕ) :
    ((planned_steps cosf sinf init (stepPlanSteps flat)).length
        = (stepPlanSteps flat).length) ∧
      (∀ x, (planned_steps cosf sinf init (stepPlanSteps flat)).get? 0 = some x →
        x.step.support_foot = init.support_foot ∧
          ∀ s, (stepPlanSteps flat).get? 0 = some s →
            x.pose = poseAdd cosf sinf init.pose s ∧ x.step.step = s) ∧
      (∀ x y, (planned_steps cosf sinf init (stepPlanSteps flat)).get? k = some x →
        (planned_steps cosf sinf init (stepPlanSteps flat)).get? (k + 1) = some y →
          y.step.support_foot = x.step.support_foot.opposite ∧
            ∀ s, (stepPlanSteps flat).get? (k + 1) = some s →
              y.pose = poseAdd cosf sinf x.pose s ∧ y.step.step = s) ∧
      (∀ p : Pose K, ∀ s : Step K, poseAdd cosf sinf p s =
        ⟨(p.position.1 + (cosf p.orientation * s.forward - sinf p.orientation * s.left),
          p.position.2 + (sinf p.orientation * s.forward + cosf p.orientation * s.left)),
          p.orientation + s.turn⟩) := by
  refine ⟨planned_steps_length cosf sinf init _, ?_, ?_, fun p s => rfl⟩
  · intro x hx
    cases hSP : stepPlanSteps flat with
    | nil =>
      rw [hSP] at hx
      simp [planned_steps] at hx
    | cons s rest =>
      rw [hSP, planned_steps_cons] at hx
      simp only [List.get?] at hx
      cases hx
      refine ⟨rfl, ?_⟩
      intro s' hs
      simp only [List.get?] at hs
      cases hs
      exact ⟨rfl, rfl⟩
  · intro x y hx hy
    exact planned_steps_succ cosf sinf _ init k x y hx hy

/-- Claim C2 witness: the rollout invariants evaluated on a concrete
two-step plan over `ℚ`. -/
theorem planned_steps_rollout_witness :
    ((planned_steps (fun _ => (1 : ℚ)) (fun _ => 0)
          ⟨⟨(0, 0), 0⟩, Side.Left⟩ (stepPlanSteps [1, 2, 3, 4, 5, 6])).length
        = (stepPlanSteps [(1 : ℚ), 2, 3, 4, 5, 6]).length) ∧
      (∀ x, (planned_steps (fun _ => (1 : ℚ)) (fun _ => 0)
            ⟨⟨(0, 0), 0⟩, Side.Left⟩ (stepPlanSteps [1, 2, 3, 4, 5, 6])).get? 0 = some x →
        x.step.support_foot = Side.Left ∧
          ∀ s, (stepPlanSteps [(1 : ℚ), 2, 3, 4, 5, 6]).get? 0 = some s →
            x.pose = poseAdd (fun _ => (1 : ℚ)) (fun _ => 0) ⟨(0, 0), 0⟩ s ∧
              x.step.step = s) := by
  obtain ⟨h1, h2, -, -⟩ := planned_steps_rollout (fun _ => (1 : ℚ)) (fun _ => 0)
    ⟨⟨(0, 0), 0⟩, Side.Left⟩ [1, 2, 3, 4, 5, 6] 0
  exact ⟨h1, h2⟩

/-- Claim C5: the three regions of `smoothmin` and `smoothmin_derivative`,
their agreement at the two seams `x = max − h` and `x = max`, and the
concrete values `smoothmin(0,3,1) = 0.5`, `smoothmin(2.5,3,1) = 2.875`,
`smoothmin(5,3,1) = 3` with derivatives `1`, `0.5`, `0`. -/
theorem smoothmin_spec (x mx h : K) (hh : 0 < h) :
    (x < mx - h → smoothmin x mx h = x + h / 2 ∧ smoothmin_derivative x mx h = 1) ∧
      (mx - h ≤ x → x < mx →
        smoothmin x mx h = mx - (mx - x) ^ 2 / (2 * h) ∧
          smoothmin_derivative x mx h = (mx - x) / h) ∧
      (mx ≤ x → smoothmin x mx h = mx ∧ smoothmin_derivative x mx h = 0) ∧
      ((mx - h) + h / 2 = mx - (mx - (mx - h)) ^ 2 / (2 * h)) ∧
      (mx - (mx - mx) ^ 2 / (2 * h) = mx) ∧
      ((1 : K) = (mx - (mx - h)) / h) ∧
      ((mx - mx) / h = 0) ∧
      (smoothmin (0 : K) 3 1 = 1 / 2 ∧ smoothmin (5 / 2 : K) 3 1 = 23 / 8 ∧
        smoothmin (5 : K) 3 1 = 3 ∧ smoothmin_derivative (0 : K) 3 1 = 1 ∧
        smoothmin_derivative (5 / 2 : K) 3 1 = 1 / 2 ∧
        smoothmin_derivative (5 : K) 3 1 = 0) := by
  have hne : h ≠ 0 := ne_of_gt hh
  refine ⟨?_, ?_, ?_, ?_, ?_, ?_, ?_, ?_⟩
  · intro hx
    rw [smoothmin, smoothmin_derivative, if_pos hx, if_pos hx]
    constructor <;> ring
  · intro hx1 hx2
    rw [smoothmin, smoothmin_derivative, if_neg (not_lt.mpr hx1),
      if_neg (not_lt.mpr hx1), if_pos hx2, if_pos hx2]
    constructor
    · ring
    · rw [mul_comm h 2, mul_div_mul_left _ _ (two_ne_zero)]
  · intro hx
    have h1 : ¬x < mx - h := by
      rw [not_lt]
      nlinarith
    rw [smoothmin, smoothmin_derivative, if_neg h1, if_neg h1,
      if_neg (not_lt.mpr hx), if_neg (not_lt.mpr hx)]
    exact ⟨rfl, rfl⟩
  · field_simp
    ring
  · ring_nf
  · field_simp
  · simp
  · norm_num [smoothmin, smoothmin_derivative]

/-- Claim C5 witness: the smoothmin region/seam statement instantiated over
`ℚ` at `x = 0`, `max = 3`, `h = 1`. -/
theorem smoothmin_spec_witness :
    (0 : ℚ) < 1 ∧
      (((0 : ℚ) < 3 - 1 →
          smoothmin (0 : ℚ) 3 1 = 0 + 1 / 2 ∧ smoothmin_derivative (0 : ℚ) 3 1 = 1) ∧
        ((3 : ℚ) - 1 ≤ 0 → (0 : ℚ) < 3 →
          smoothmin (0 : ℚ) 3 1 = 3 - (3 - 0) ^ 2 / (2 * 1) ∧
            smoothmin_derivative (0 : ℚ) 3 1 = (3 - 0) / 1) ∧
        ((3 : ℚ) ≤ 0 → smoothmin (0 : ℚ) 3 1 = 3 ∧
          smoothmin_derivative (0 : ℚ) 3 1 = 0) ∧
        (((3 : ℚ) - 1) + 1 / 2 = 3 - (3 - (3 - 1)) ^ 2 / (2 * 1)) ∧
        ((3 : ℚ) - (3 - 3) ^ 2 / (2 * 1) = 3) ∧
        ((1 : ℚ) = (3 - (3 - 1)) / 1) ∧
        (((3 : ℚ) - 3) / 1 = 0) ∧
        (smoothmin (0 : ℚ) 3 1 = 1 / 2 ∧ smoothmin (5 / 2 : ℚ) 3 1 = 23 / 8 ∧
          smoothmin (5 : ℚ) 3 1 = 3 ∧ smoothmin_derivative (0 : ℚ) 3 1 = 1 ∧
          smoothmin_derivative (5 / 2 : ℚ) 3 1 = 1 / 2 ∧
          smoothmin_derivative (5 : ℚ) 3 1 = 0)) :=
  ⟨one_pos, smoothmin_spec (0 : ℚ) 3 1 one_pos⟩

theorem normalizedAngle_eq_fract (P : Prims ℝ) (hpi : P.pi = Real.pi)
    (hflr : ∀ y, P.flr y = ⌊y⌋) (x : ℝ) :
    normalizedAngle P x = 2 * Real.pi * Int.fract (x / (2 * Real.pi)) := by
  unfold normalizedAngle
  rw [hpi, hflr, Int.fract]
  have h2 : (2 * Real.pi) ≠ 0 := by
    positivity
  field_simp
  ring

theorem normalized_add_normalized_neg (P : Prims ℝ) (hpi : P.pi = Real.pi)
    (hflr : ∀ y, P.flr y = ⌊y⌋) (x : ℝ) (hx : normalizedAngle P x ≠ 0) :
    normalizedAngle P x + normalizedAngle P (-x) = 2 * Real.pi := by
  rw [normalizedAngle_eq_fract P hpi hflr] at hx ⊢
  rw [normalizedAngle_eq_fract P hpi hflr]
  have h2 : (0 : ℝ) < 2 * Real.pi := by positivity
  have hfr : Int.fract (x / (2 * Real.pi)) ≠ 0 := by
    intro h0
    exact hx (by rw [h0]; ring)
  rw [neg_div, Int.fract_neg hfr]
  ring

/-- Claim C6 (amended): `Arc::length` is `radius · angle_to(start, end,
direction)`; flipping the direction turns the sweep from `a` to `b` into the
sweep from `b` to `a`; and two arcs differing only in direction have lengths
summing to `2π·radius` provided start and end do not coincide modulo `2π`
(for `start ≡ end` both sweeps normalize to `0` and the sum is `0`). -/
theorem arc_length_spec (c : Circle ℝ) (a b : ℝ)
    (hne : normalizedAngle
        (⟨Real.pi, Real.cos, Real.sin, Real.sqrt,
          fun y x => Complex.arg ⟨x, y⟩, fun x => ⌊x⌋⟩ : Prims ℝ) (b - a) ≠ 0) :
    (∀ arc : Arc ℝ, arc.length
        (⟨Real.pi, Real.cos, Real.sin, Real.sqrt,
          fun y x => Complex.arg ⟨x, y⟩, fun x => ⌊x⌋⟩ : Prims ℝ) =
      arc.circle.radius * angle_to
        (⟨Real.pi, Real.cos, Real.sin, Real.sqrt,
          fun y x => Complex.arg ⟨x, y⟩, fun x => ⌊x⌋⟩ : Prims ℝ)
        arc.start arc.stop arc.direction) ∧
    (∀ a' b' : ℝ, angle_to
        (⟨Real.pi, Real.cos, Real.sin, Real.sqrt,
          fun y x => Complex.arg ⟨x, y⟩, fun x => ⌊x⌋⟩ : Prims ℝ)
        a' b' Direction.Clockwise =
      angle_to
        (⟨Real.pi, Real.cos, Real.sin, Real.sqrt,
          fun y x => Complex.arg ⟨x, y⟩, fun x => ⌊x⌋⟩ : Prims ℝ)
        b' a' Direction.Counterclockwise) ∧
    (Arc.length
        (⟨Real.pi, Real.cos, Real.sin, Real.sqrt,
          fun y x => Complex.arg ⟨x, y⟩, fun x => ⌊x⌋⟩ : Prims ℝ)
        ⟨c, a, b, Direction.Clockwise⟩ +
      Arc.length
        (⟨Real.pi, Real.cos, Real.sin, Real.sqrt,
          fun y x => Complex.arg ⟨x, y⟩, fun x => ⌊x⌋⟩ : Prims ℝ)
        ⟨c, a, b, Direction.Counterclockwise⟩ = 2 * Real.pi * c.radius) := by
  refine ⟨fun arc => mul_comm _ _, ?_, ?_⟩
  · intro a' b'
    unfold angle_to Direction.angle_sign
    congr 1
    ring
  · unfold Arc.length angle_to Direction.angle_sign
    simp only
    have hsum := normalized_add_normalized_neg
      (⟨Real.pi, Real.cos, Real.sin, Real.sqrt,
        fun y x => Complex.arg ⟨x, y⟩, fun x => ⌊x⌋⟩ : Prims ℝ)
      rfl (fun _ => rfl) (b - a) (by simpa using hne)
    have harg1 : (b - a) * (-1 : ℝ) = -(b - a) := by ring
    have harg2 : (b - a) * (1 : ℝ) = b - a := by ring
    rw [harg1, harg2]
    linear_combination c.radius * hsum

/-- Claim C6 witness: the amended arc-length statement at the unit circle
from angle `0` to `π` (the normalized sweep `π` is nonzero). -/
theorem arc_length_spec_witness :
    (normalizedAngle
        (⟨Real.pi, Real.cos, Real.sin, Real.sqrt,
          fun y x => Complex.arg ⟨x, y⟩, fun x => ⌊x⌋⟩ : Prims ℝ)
        (Real.pi - 0) ≠ 0) ∧
      (Arc.length
          (⟨Real.pi, Real.cos, Real.sin, Real.sqrt,
            fun y x => Complex.arg ⟨x, y⟩, fun x => ⌊x⌋⟩ : Prims ℝ)
          ⟨⟨(0, 0), 1⟩, 0, Real.pi, Direction.Clockwise⟩ +
        Arc.length
          (⟨Real.pi, Real.cos, Real.sin, Real.sqrt,
            fun y x => Complex.arg ⟨x, y⟩, fun x => ⌊x⌋⟩ : Prims ℝ)
          ⟨⟨(0, 0), 1⟩, 0, Real.pi, Direction.Counterclockwise⟩ =
        2 * Real.pi * (1 : ℝ)) := by
  have hne : normalizedAngle
      (⟨Real.pi, Real.cos, Real.sin, Real.sqrt,
        fun y x => Complex.arg ⟨x, y⟩, fun x => ⌊x⌋⟩ : Prims ℝ)
      (Real.pi - 0) ≠ 0 := by
    rw [normalizedAngle_eq_fract _ rfl (fun _ => rfl)]
    have hpi := Real.pi_ne_zero
    have hdiv : (Real.pi - 0) / (2 * Real.pi) = 1 / 2 := by
      field_simp
      ring
    rw [hdiv]
    rw [Int.fract_eq_self.mpr (by norm_num)]
    positivity
  exact ⟨hne, (arc_length_spec ⟨(0, 0), 1⟩ 0 Real.pi (by simpa using hne)).2.2⟩

/-- Claim C6 counterexample: for the degenerate pair `start = end = 0` on a
radius-2 circle, both directed lengths are `0`, so the opposite-direction
lengths sum to `0`, not `2π·radius`. -/
theorem arc_length_sum_counterexample :
    Arc.length
        (⟨Real.pi, Real.cos, Real.sin, Real.sqrt,
          fun y x => Complex.arg ⟨x, y⟩, fun x => ⌊x⌋⟩ : Prims ℝ)
        ⟨⟨(0, 0), 2⟩, 0, 0, Direction.Clockwise⟩ +
      Arc.length
        (⟨Real.pi, Real.cos, Real.sin, Real.sqrt,
          fun y x => Complex.arg ⟨x, y⟩, fun x => ⌊x⌋⟩ : Prims ℝ)
        ⟨⟨(0, 0), 2⟩, 0, 0, Direction.Counterclockwise⟩ ≠
    2 * Real.pi * 2 := by
  unfold Arc.length angle_to Direction.angle_sign
  simp only
  rw [normalizedAngle_eq_fract _ rfl (fun _ => rfl),
    normalizedAngle_eq_fract _ rfl (fun _ => rfl)]
  have hpi := Real.pi_pos
  norm_num
  exact Real.pi_ne_zero

/-- Claim C7 (amended): for a query whose angle from the center falls outside
the arc's sweep, `classify_point` returns `Start` exactly when the squared
distance to the start point is strictly smaller than the squared distance to
the end point, and `End` otherwise — in particular `End`, not `Start`, on an
exact tie. -/
theorem classify_point_endpoint_choice (P : Prims K) (arc : Arc K) (p : Vec2 K)
    (h : ¬ angle_to P arc.start
        (P.atan2 (vsub p arc.circle.center).2 (vsub p arc.circle.center).1)
        arc.direction <
      angle_to P arc.start arc.stop arc.direction) :
    arc.classify_point P p =
      if normSq (vsub p (point_at_angle P arc.circle arc.start)) <
          normSq (vsub p (point_at_angle P arc.circle arc.stop)) then
        ArcProjectionKind.Start
      else ArcProjectionKind.End := by
  unfold Arc.classify_point
  simp only [if_neg h]

/-- Claim C7 witness: the endpoint-choice statement applied to a degenerate
concrete arc over `ℚ` with trivial primitives, where the query angle is
outside the (empty) sweep. -/
theorem classify_point_endpoint_choice_witness :
    (¬ angle_to (⟨0, id, id, id, fun _ _ => 0, fun _ => 0⟩ : Prims ℚ) 0
        ((⟨0, id, id, id, fun _ _ => 0, fun _ => 0⟩ : Prims ℚ).atan2
          (vsub ((5 : ℚ), (5 : ℚ)) ((0 : ℚ), (0 : ℚ))).2
          (vsub ((5 : ℚ), (5 : ℚ)) ((0 : ℚ), (0 : ℚ))).1)
        Direction.Counterclockwise <
      angle_to (⟨0, id, id, id, fun _ _ => 0, fun _ => 0⟩ : Prims ℚ) 0 0
        Direction.Counterclockwise) ∧
      (Arc.classify_point (⟨0, id, id, id, fun _ _ => 0, fun _ => 0⟩ : Prims ℚ)
          ⟨⟨(0, 0), 1⟩, 0, 0, Direction.Counterclockwise⟩ ((5 : ℚ), (5 : ℚ)) =
        if normSq (vsub ((5 : ℚ), (5 : ℚ))
              (point_at_angle (⟨0, id, id, id, fun _ _ => 0, fun _ => 0⟩ : Prims ℚ)
                ⟨(0, 0), 1⟩ 0)) <
            normSq (vsub ((5 : ℚ), (5 : ℚ))
              (point_at_angle (⟨0, id, id, id, fun _ _ => 0, fun _ => 0⟩ : Prims ℚ)
                ⟨(0, 0), 1⟩ 0)) then
          ArcProjectionKind.Start
        else ArcProjectionKind.End) := by
  have h : ¬ angle_to (⟨0, id, id, id, fun _ _ => 0, fun _ => 0⟩ : Prims ℚ) 0
      ((⟨0, id, id, id, fun _ _ => 0, fun _ => 0⟩ : Prims ℚ).atan2
        (vsub ((5 : ℚ), (5 : ℚ)) ((0 : ℚ), (0 : ℚ))).2
        (vsub ((5 : ℚ), (5 : ℚ)) ((0 : ℚ), (0 : ℚ))).1)
      Direction.Counterclockwise <
      angle_to (⟨0, id, id, id, fun _ _ => 0, fun _ => 0⟩ : Prims ℚ) 0 0
        Direction.Counterclockwise := by
    norm_num [angle_to, normalizedAngle, Direction.angle_sign]
  exact ⟨h, classify_point_endpoint_choice _
    ⟨⟨(0, 0), 1⟩, 0, 0, Direction.Counterclockwise⟩ ((5 : ℚ), (5 : ℚ)) h⟩

/-- Claim C7 counterexample: for the counterclockwise unit arc from `π/4` to
`3π/4` centered at the origin and the query `(0, −2)` — equidistant from both
endpoints and outside the sweep — `classify_point` returns `End`, not the
`Start` the claim demands on an exact squared-distance tie. -/
theorem classify_point_tie_counterexample :
    (normSq (vsub ((0 : ℝ), (-2 : ℝ))
          (point_at_angle
            (⟨Real.pi, Real.cos, Real.sin, Real.sqrt,
              fun y x => Complex.arg ⟨x, y⟩, fun x => ⌊x⌋⟩ : Prims ℝ)
            ⟨(0, 0), 1⟩ (Real.pi / 4))) =
        normSq (vsub ((0 : ℝ), (-2 : ℝ))
          (point_at_angle
            (⟨Real.pi, Real.cos, Real.sin, Real.sqrt,
              fun y x => Complex.arg ⟨x, y⟩, fun x => ⌊x⌋⟩ : Prims ℝ)
            ⟨(0, 0), 1⟩ (3 * Real.pi / 4)))) ∧
      Arc.classify_point
          (⟨Real.pi, Real.cos, Real.sin, Real.sqrt,
            fun y x => Complex.arg ⟨x, y⟩, fun x => ⌊x⌋⟩ : Prims ℝ)
          ⟨⟨(0, 0), 1⟩, Real.pi / 4, 3 * Real.pi / 4, Direction.Counterclockwise⟩
          ((0 : ℝ), (-2 : ℝ)) ≠ ArcProjectionKind.Start ∧
      Arc.classify_point
          (⟨Real.pi, Real.cos, Real.sin, Real.sqrt,
            fun y x => Complex.arg ⟨x, y⟩, fun x => ⌊x⌋⟩ : Prims ℝ)
          ⟨⟨(0, 0), 1⟩, Real.pi / 4, 3 * Real.pi / 4, Direction.Counterclockwise⟩
          ((0 : ℝ), (-2 : ℝ)) = ArcProjectionKind.End := by
  have hc34 : Real.cos (3 * Real.pi / 4) = -Real.cos (Real.pi / 4) := by
    rw [show 3 * Real.pi / 4 = Real.pi - Real.pi / 4 by ring, Real.cos_pi_sub]
  have hs34 : Real.sin (3 * Real.pi / 4) = Real.sin (Real.pi / 4) := by
    rw [show 3 * Real.pi / 4 = Real.pi - Real.pi / 4 by ring, Real.sin_pi_sub]
  have hdist : normSq (vsub ((0 : ℝ), (-2 : ℝ))
        (point_at_angle
          (⟨Real.pi, Real.cos, Real.sin, Real.sqrt,
            fun y x => Complex.arg ⟨x, y⟩, fun x => ⌊x⌋⟩ : Prims ℝ)
          ⟨(0, 0), 1⟩ (Real.pi / 4))) =
      normSq (vsub ((0 : ℝ), (-2 : ℝ))
        (point_at_angle
          (⟨Real.pi, Real.cos, Real.sin, Real.sqrt,
            fun y x => Complex.arg ⟨x, y⟩, fun x => ⌊x⌋⟩ : Prims ℝ)
          ⟨(0, 0), 1⟩ (3 * Real.pi / 4))) := by
    simp only [normSq, vsub, point_at_angle, vadd]
    rw [hc34, hs34]
    ring
  have harg : Complex.arg ⟨(0 : ℝ) - 0, (-2 : ℝ) - 0⟩ = -(Real.pi / 2) := by
    have hz : (⟨(0 : ℝ) - 0, (-2 : ℝ) - 0⟩ : ℂ) = ((2 : ℝ) : ℂ) * (-Complex.I) := by
      apply Complex.ext <;> simp
    rw [hz, Complex.arg_real_mul _ (by norm_num : (0 : ℝ) < 2), Complex.arg_neg_I]
  have hA : normalizedAngle
      (⟨Real.pi, Real.cos, Real.sin, Real.sqrt,
        fun y x => Complex.arg ⟨x, y⟩, fun x => ⌊x⌋⟩ : Prims ℝ)
      (-(Real.pi / 2) - Real.pi / 4) = 5 * Real.pi / 4 := by
    rw [normalizedAngle_eq_fract _ rfl (fun _ => rfl)]
    have hdiv : (-(Real.pi / 2) - Real.pi / 4) / (2 * Real.pi) = -(3 / 8 : ℝ) := by
      have := Real.pi_ne_zero
      field_simp
      ring
    rw [hdiv]
    have hfr : Int.fract (-(3 / 8 : ℝ)) = 5 / 8 := by
      have hfl : ⌊(-(3 / 8 : ℝ))⌋ = -1 := by
        rw [Int.floor_eq_iff]
        norm_num
      rw [Int.fract, hfl]
      norm_num
    rw [hfr]
    ring
  have hE : normalizedAngle
      (⟨Real.pi, Real.cos, Real.sin, Real.sqrt,
        fun y x => Complex.arg ⟨x, y⟩, fun x => ⌊x⌋⟩ : Prims ℝ)
      (3 * Real.pi / 4 - Real.pi / 4) = Real.pi / 2 := by
    rw [normalizedAngle_eq_fract _ rfl (fun _ => rfl)]
    have hdiv : (3 * Real.pi / 4 - Real.pi / 4) / (2 * Real.pi) = (1 / 4 : ℝ) := by
      have := Real.pi_ne_zero
      field_simp
      ring
    rw [hdiv]
    rw [Int.fract_eq_self.mpr (by norm_num)]
    ring
  have hclass : Arc.classify_point
      (⟨Real.pi, Real.cos, Real.sin, Real.sqrt,
        fun y x => Complex.arg ⟨x, y⟩, fun x => ⌊x⌋⟩ : Prims ℝ)
      ⟨⟨(0, 0), 1⟩, Real.pi / 4, 3 * Real.pi / 4, Direction.Counterclockwise⟩
      ((0 : ℝ), (-2 : ℝ)) = ArcProjectionKind.End := by
    have hdist' := hdist
    simp only [vsub] at hdist'
    unfold Arc.classify_point angle_to Direction.angle_sign
    simp only [vsub, harg, mul_one]
    rw [hA, hE]
    rw [if_neg (by nlinarith [Real.pi_pos]), if_neg (by rw [hdist']; exact lt_irrefl _)]
  refine ⟨hdist, ?_, hclass⟩
  rw [hclass]
  decide

theorem rpow_fun_eq (a b : ℝ) : Real.rpow a b = a ^ b := rfl

theorem walk_volume_pure_left (c : WalkVolumeCoefficients ℝ) (y : ℝ) (foot : Side)
    (ht : c.translation_exponent ≠ 0) (hr : c.rotation_exponent ≠ 0) :
    walk_volume Real.rpow ⟨⟨0, y, 0⟩, foot⟩ c =
      |y * (c.costs ⟨⟨0, y, 0⟩, foot⟩).left| ^ c.rotation_exponent := by
  unfold walk_volume
  simp only [zero_mul, abs_zero, rpow_fun_eq]
  rw [Real.zero_rpow ht, Real.zero_rpow hr, zero_add, add_zero]
  rw [← Real.rpow_mul (abs_nonneg _)]
  congr 1
  field_simp

theorem costs_left_sel (c : WalkVolumeCoefficients ℝ) (s : Step ℝ) :
    (c.costs ⟨s, Side.Left⟩).left =
      (if 0 ≤ s.left then c.inward_cost else c.outward_cost) ∧
    (c.costs ⟨s, Side.Right⟩).left =
      (if 0 ≤ s.left then c.outward_cost else c.inward_cost) := by
  unfold WalkVolumeCoefficients.costs positive_negative
  exact ⟨rfl, rfl⟩

/-- Claim C9: with coefficients built from extents whose inward extent is
smaller than the outward extent, a pure-left step of `+ε` is penalized
strictly more than `−ε` when the support foot is `Left`, and strictly less
when it is `Right`. -/
theorem step_size_asymmetry (e : WalkVolumeExtents ℝ) (t r ε : ℝ)
    (hinpos : 0 < e.inward) (hio : e.inward < e.outward) (hε : 0 < ε)
    (ht : 0 < t) (hr : 0 < r) :
    stepSizeLoss Real.rpow (WalkVolumeCoefficients.from_extents_and_exponents e t r)
        ⟨⟨0, -ε, 0⟩, Side.Left⟩ <
      stepSizeLoss Real.rpow (WalkVolumeCoefficients.from_extents_and_exponents e t r)
        ⟨⟨0, ε, 0⟩, Side.Left⟩ ∧
    stepSizeLoss Real.rpow (WalkVolumeCoefficients.from_extents_and_exponents e t r)
        ⟨⟨0, ε, 0⟩, Side.Right⟩ <
      stepSizeLoss Real.rpow (WalkVolumeCoefficients.from_extents_and_exponents e t r)
        ⟨⟨0, -ε, 0⟩, Side.Right⟩ := by
  have houtpos : 0 < e.outward := lt_trans hinpos hio
  have hc : WalkVolumeCoefficients.from_extents_and_exponents e t r =
      ⟨1 / e.forward, 1 / e.backward, 1 / e.outward, 1 / e.inward,
        1 / e.outward_rotation, 1 / e.inward_rotation, t, r⟩ := rfl
  have hεle : (0 : ℝ) ≤ ε := le_of_lt hε
  have hnεle : ¬ (0 : ℝ) ≤ -ε := by linarith
  have hA : (0 : ℝ) < ε * (1 / e.outward) := by positivity
  have hB : ε * (1 / e.outward) < ε * (1 / e.inward) := by
    apply mul_lt_mul_of_pos_left _ hε
    rw [div_lt_div_iff₀ houtpos hinpos]
    linarith
  have hV : |(-ε) * (1 / e.outward)| ^ (r : ℝ) < |ε * (1 / e.inward)| ^ (r : ℝ) := by
    rw [abs_mul, abs_mul, abs_neg]
    rw [abs_of_nonneg hεle, abs_of_nonneg (by positivity : (0:ℝ) ≤ 1 / e.outward),
      abs_of_nonneg (by positivity : (0:ℝ) ≤ 1 / e.inward)]
    exact Real.rpow_lt_rpow (by positivity) hB hr
  have hV2 : |ε * (1 / e.outward)| ^ (r : ℝ) < |(-ε) * (1 / e.inward)| ^ (r : ℝ) := by
    rw [abs_mul, abs_mul, abs_neg]
    rw [abs_of_nonneg hεle, abs_of_nonneg (by positivity : (0:ℝ) ≤ 1 / e.outward),
      abs_of_nonneg (by positivity : (0:ℝ) ≤ 1 / e.inward)]
    exact Real.rpow_lt_rpow (by positivity) hB hr
  constructor
  · unfold stepSizeLoss penalty_function
    rw [walk_volume_pure_left _ _ _ (ne_of_gt ht) (ne_of_gt hr),
      walk_volume_pure_left _ _ _ (ne_of_gt ht) (ne_of_gt hr)]
    rw [(costs_left_sel _ _).1, (costs_left_sel _ _).1]
    simp only [hc, if_pos hεle, if_neg hnεle]
    apply pow_lt_pow_left₀ hV (Real.rpow_nonneg (abs_nonneg _) _)
    norm_num
  · unfold stepSizeLoss penalty_function
    rw [walk_volume_pure_left _ _ _ (ne_of_gt ht) (ne_of_gt hr),
      walk_volume_pure_left _ _ _ (ne_of_gt ht) (ne_of_gt hr)]
    rw [(costs_left_sel _ _).2, (costs_left_sel _ _).2]
    simp only [hc, if_pos hεle, if_neg hnεle]
    apply pow_lt_pow_left₀ hV2 (Real.rpow_nonneg (abs_nonneg _) _)
    norm_num

/-- Claim C9 witness: the asymmetry at concrete extents
(inward `1/2 < outward 1`), exponents `t = r = 1`, and `ε = 1`. -/
theorem step_size_asymmetry_witness :
    (0 : ℝ) < 1 / 2 ∧ (1 / 2 : ℝ) < 1 ∧ (0 : ℝ) < 1 ∧
      (stepSizeLoss Real.rpow
          (WalkVolumeCoefficients.from_extents_and_exponents ⟨1, 1, 1, 1 / 2, 1, 1⟩ 1 1)
          ⟨⟨0, -1, 0⟩, Side.Left⟩ <
        stepSizeLoss Real.rpow
          (WalkVolumeCoefficients.from_extents_and_exponents ⟨1, 1, 1, 1 / 2, 1, 1⟩ 1 1)
          ⟨⟨0, 1, 0⟩, Side.Left⟩) := by
  refine ⟨by norm_num, by norm_num, one_pos, ?_⟩
  exact (step_size_asymmetry ⟨1, 1, 1, 1 / 2, 1, 1⟩ 1 1 1 (by norm_num) (by norm_num)
    one_pos one_pos one_pos).1

theorem costs_all_pos (c : WalkVolumeCoefficients ℝ) (s : StepAndSupportFoot ℝ)
    (h1 : 0 < c.forward_cost) (h2 : 0 < c.backward_cost) (h3 : 0 < c.outward_cost)
    (h4 : 0 < c.inward_cost) (h5 : 0 < c.outward_rotation_cost)
    (h6 : 0 < c.inward_rotation_cost) :
    0 < (c.costs s).forward ∧ 0 < (c.costs s).left ∧ 0 < (c.costs s).turn := by
  obtain ⟨step, foot⟩ := s
  unfold WalkVolumeCoefficients.costs positive_negative
  cases foot <;> simp only <;>
    refine ⟨?_, ?_, ?_⟩ <;> split <;> assumption

/-- Claim C10: with strictly positive costs and strictly positive exponents,
`StepSizeField::loss` is non-negative, and it vanishes exactly at the zero
step `forward = left = turn = 0`. -/
theorem step_size_loss_nonneg_zero_iff (c : WalkVolumeCoefficients ℝ)
    (s : StepAndSupportFoot ℝ)
    (h1 : 0 < c.forward_cost) (h2 : 0 < c.backward_cost) (h3 : 0 < c.outward_cost)
    (h4 : 0 < c.inward_cost) (h5 : 0 < c.outward_rotation_cost)
    (h6 : 0 < c.inward_rotation_cost) (ht : 0 < c.translation_exponent)
    (hr : 0 < c.rotation_exponent) :
    0 ≤ stepSizeLoss Real.rpow c s ∧
      (stepSizeLoss Real.rpow c s = 0 ↔
        s.step.forward = 0 ∧ s.step.left = 0 ∧ s.step.turn = 0) := by
  obtain ⟨hcf, hcl, hct⟩ := costs_all_pos c s h1 h2 h3 h4 h5 h6
  have hS : (0 : ℝ) ≤ |s.step.forward * (c.costs s).forward| ^ c.translation_exponent +
      |s.step.left * (c.costs s).left| ^ c.translation_exponent :=
    add_nonneg (Real.rpow_nonneg (abs_nonneg _) _) (Real.rpow_nonneg (abs_nonneg _) _)
  have hV : (0 : ℝ) ≤ walk_volume Real.rpow s c := by
    unfold walk_volume
    simp only [rpow_fun_eq]
    exact add_nonneg (Real.rpow_nonneg hS _) (Real.rpow_nonneg (abs_nonneg _) _)
  constructor
  · exact pow_nonneg hV 6
  · unfold stepSizeLoss penalty_function
    rw [pow_eq_zero_iff (by norm_num : (6 : ℕ) ≠ 0)]
    unfold walk_volume
    simp only [rpow_fun_eq]
    rw [add_eq_zero_iff_of_nonneg (Real.rpow_nonneg hS _)
      (Real.rpow_nonneg (abs_nonneg _) _)]
    rw [Real.rpow_eq_zero_iff_of_nonneg hS,
      Real.rpow_eq_zero_iff_of_nonneg (abs_nonneg _)]
    rw [add_eq_zero_iff_of_nonneg (Real.rpow_nonneg (abs_nonneg _) _)
      (Real.rpow_nonneg (abs_nonneg _) _)]
    rw [Real.rpow_eq_zero_iff_of_nonneg (abs_nonneg _),
      Real.rpow_eq_zero_iff_of_nonneg (abs_nonneg _)]
    have hdiv : c.rotation_exponent / c.translation_exponent ≠ 0 := by
      positivity
    have htne : c.translation_exponent ≠ 0 := ne_of_gt ht
    have hrne : c.rotation_exponent ≠ 0 := ne_of_gt hr
    simp only [hdiv, htne, hrne, ne_eq, not_false_eq_true, and_true, abs_eq_zero,
      mul_eq_zero]
    constructor
    · rintro ⟨⟨hf | hf, hl | hl⟩, htn | htn⟩
      <;> first
        | exact ⟨hf, hl, htn⟩
        | (exfalso
           first
             | exact absurd hf (ne_of_gt hcf)
             | exact absurd hl (ne_of_gt hcl)
             | exact absurd htn (ne_of_gt hct))
    · rintro ⟨hf, hl, htn⟩
      exact ⟨⟨Or.inl hf, Or.inl hl⟩, Or.inl htn⟩

/-- Claim C10 witness: non-negativity and the zero characterization at
concrete unit costs and exponents, evaluated on the step `(1, 0, 0)`. -/
theorem step_size_loss_nonneg_zero_iff_witness :
    (0 : ℝ) < 1 ∧
      (0 ≤ stepSizeLoss Real.rpow ⟨1, 1, 1, 1, 1, 1, 1, 1⟩ ⟨⟨1, 0, 0⟩, Side.Left⟩ ∧
        (stepSizeLoss Real.rpow ⟨1, 1, 1, 1, 1, 1, 1, 1⟩ ⟨⟨1, 0, 0⟩, Side.Left⟩ = 0 ↔
          (1 : ℝ) = 0 ∧ (0 : ℝ) = 0 ∧ (0 : ℝ) = 0)) :=
  ⟨one_pos,
    step_size_loss_nonneg_zero_iff ⟨1, 1, 1, 1, 1, 1, 1, 1⟩ ⟨⟨1, 0, 0⟩, Side.Left⟩
      one_pos one_pos one_pos one_pos one_pos one_pos one_pos one_pos⟩

theorem sgn_mul_abs (x : ℝ) : sgn x * |x| = x := by
  unfold sgn
  split
  · rw [one_mul, abs_of_nonneg]
    assumption
  · rw [neg_one_mul, abs_of_neg, neg_neg]
    linarith [not_le.mp (by assumption : ¬ (0:ℝ) ≤ x)]

/-- Claim C1: `StepSizeField::grad` is `6·V⁵` times the hand-derived
`walk_volume_gradient` (whose nonzero branches are
`r·c² · step · T · |n|^t / n²`), and on every component it agrees exactly
with the dual-number (forward-mode) differentiation of `StepSizeField::loss`
at the same input; the dual value part reproduces the loss itself. -/
theorem step_size_grad_agrees_dual (c : WalkVolumeCoefficients ℝ)
    (s : StepAndSupportFoot ℝ)
    (h1 : 0 < c.forward_cost) (h2 : 0 < c.backward_cost) (h3 : 0 < c.outward_cost)
    (h4 : 0 < c.inward_cost) (h5 : 0 < c.outward_rotation_cost)
    (h6 : 0 < c.inward_rotation_cost) (ht : 1 < c.translation_exponent)
    (hr : 1 < c.rotation_exponent)
    (htr : c.translation_exponent ≤ c.rotation_exponent) :
    stepSizeGrad Real.rpow c s =
      (walk_volume_gradient Real.rpow s c).scale
        (6 * walk_volume Real.rpow s c ^ 5) ∧
    (dual_step_size_loss Real.rpow ⟨s.step.forward, 1⟩ ⟨s.step.left, 0⟩
        ⟨s.step.turn, 0⟩ s.support_foot c).re = stepSizeLoss Real.rpow c s ∧
    (dual_step_size_loss Real.rpow ⟨s.step.forward, 1⟩ ⟨s.step.left, 0⟩
        ⟨s.step.turn, 0⟩ s.support_foot c).du = (stepSizeGrad Real.rpow c s).forward ∧
    (dual_step_size_loss Real.rpow ⟨s.step.forward, 0⟩ ⟨s.step.left, 1⟩
        ⟨s.step.turn, 0⟩ s.support_foot c).du = (stepSizeGrad Real.rpow c s).left ∧
    (dual_step_size_loss Real.rpow ⟨s.step.forward, 0⟩ ⟨s.step.left, 0⟩
        ⟨s.step.turn, 1⟩ s.support_foot c).du = (stepSizeGrad Real.rpow c s).turn := by
  obtain ⟨⟨f, l, tn⟩, foot⟩ := s
  obtain ⟨hcf, hcl, hct⟩ :=
    costs_all_pos c ⟨⟨f, l, tn⟩, foot⟩ h1 h2 h3 h4 h5 h6
  have ht0 : c.translation_exponent ≠ 0 := by positivity
  have ht1 : c.translation_exponent - 1 ≠ 0 := sub_ne_zero.mpr (ne_of_gt ht)
  have hr1 : c.rotation_exponent - 1 ≠ 0 := sub_ne_zero.mpr (ne_of_gt hr)
  have hexp : c.rotation_exponent / c.translation_exponent - 1 =
      (c.rotation_exponent - c.translation_exponent) / c.translation_exponent := by
    field_simp
  refine ⟨?_, rfl, ?_, ?_, ?_⟩
  · simp only [stepSizeGrad, Step.scale, penalty_function_derivative, Step.mk.injEq]
    exact ⟨by ring, by ring, by ring⟩
  · simp only [dual_step_size_loss, dual_walk_volume, dpowi6, dpowf, dabs, dmul,
      dadd, Dual.const, stepSizeGrad, walk_volume_gradient, walk_volume,
      penalty_function_derivative, Step.scale, rpow_fun_eq]
    by_cases hf : f = 0
    · rw [if_pos hf]
      subst hf
      simp only [zero_mul, mul_zero, zero_add, add_zero, abs_zero]
      rw [Real.zero_rpow ht1]
      ring
    · rw [if_neg hf, hexp]
      rcases lt_or_gt_of_ne hf with hneg | hpos
      · have hfc : f * (c.costs ⟨⟨f, l, tn⟩, foot⟩).forward < 0 :=
          mul_neg_of_neg_of_pos hneg hcf
        have habs : |f * (c.costs ⟨⟨f, l, tn⟩, foot⟩).forward| =
            -(f * (c.costs ⟨⟨f, l, tn⟩, foot⟩).forward) := abs_of_neg hfc
        have hsg : sgn (f * (c.costs ⟨⟨f, l, tn⟩, foot⟩).forward) = -1 := by
          simp [sgn, not_le.mpr hfc]
        rw [habs, hsg]
        have hsplit : (-(f * (c.costs ⟨⟨f, l, tn⟩, foot⟩).forward)) ^
              c.translation_exponent =
            (-(f * (c.costs ⟨⟨f, l, tn⟩, foot⟩).forward)) ^
                (c.translation_exponent - 1) *
              (-(f * (c.costs ⟨⟨f, l, tn⟩, foot⟩).forward)) := by
          rw [show c.translation_exponent = (c.translation_exponent - 1) + 1 by ring,
            Real.rpow_add (by linarith), Real.rpow_one]
          norm_num
        rw [hsplit]
        have hfne : f * (c.costs ⟨⟨f, l, tn⟩, foot⟩).forward ≠ 0 := ne_of_lt hfc
        field_simp
        ring
      · have hfc : 0 < f * (c.costs ⟨⟨f, l, tn⟩, foot⟩).forward :=
          mul_pos hpos hcf
        have habs : |f * (c.costs ⟨⟨f, l, tn⟩, foot⟩).forward| =
            f * (c.costs ⟨⟨f, l, tn⟩, foot⟩).forward := abs_of_pos hfc
        have hsg : sgn (f * (c.costs ⟨⟨f, l, tn⟩, foot⟩).forward) = 1 := by
          simp [sgn, hfc.le]
        rw [habs, hsg]
        have hsplit : (f * (c.costs ⟨⟨f, l, tn⟩, foot⟩).forward) ^
              c.translation_exponent =
            (f * (c.costs ⟨⟨f, l, tn⟩, foot⟩).forward) ^
                (c.translation_exponent - 1) *
              (f * (c.costs ⟨⟨f, l, tn⟩, foot⟩).forward) := by
          rw [show c.translation_exponent = (c.translation_exponent - 1) + 1 by ring,
            Real.rpow_add hfc, Real.rpow_one]
          norm_num
        rw [hsplit]
        have hfne : f * (c.costs ⟨⟨f, l, tn⟩, foot⟩).forward ≠ 0 := ne_of_gt hfc
        field_simp
        ring
  · simp only [dual_step_size_loss, dual_walk_volume, dpowi6, dpowf, dabs, dmul,
      dadd, Dual.const, stepSizeGrad, walk_volume_gradient, walk_volume,
      penalty_function_derivative, Step.scale, rpow_fun_eq]
    by_cases hl : l = 0
    · rw [if_pos hl]
      subst hl
      simp only [zero_mul, mul_zero, zero_add, add_zero, abs_zero]
      rw [Real.zero_rpow ht1]
      ring
    · rw [if_neg hl, hexp]
      rcases lt_or_gt_of_ne hl with hneg | hpos
      · have hfc : l * (c.costs ⟨⟨f, l, tn⟩, foot⟩).left < 0 :=
          mul_neg_of_neg_of_pos hneg hcl
        have habs : |l * (c.costs ⟨⟨f, l, tn⟩, foot⟩).left| =
            -(l * (c.costs ⟨⟨f, l, tn⟩, foot⟩).left) := abs_of_neg hfc
        have hsg : sgn (l * (c.costs ⟨⟨f, l, tn⟩, foot⟩).left) = -1 := by
          simp [sgn, not_le.mpr hfc]
        rw [habs, hsg]
        have hsplit : (-(l * (c.costs ⟨⟨f, l, tn⟩, foot⟩).left)) ^
              c.translation_exponent =
            (-(l * (c.costs ⟨⟨f, l, tn⟩, foot⟩).left)) ^
                (c.translation_exponent - 1) *
              (-(l * (c.costs ⟨⟨f, l, tn⟩, foot⟩).left)) := by
          rw [show c.translation_exponent = (c.translation_exponent - 1) + 1 by ring,
            Real.rpow_add (by linarith), Real.rpow_one]
          norm_num
        rw [hsplit]
        have hfne : l * (c.costs ⟨⟨f, l, tn⟩, foot⟩).left ≠ 0 := ne_of_lt hfc
        field_simp
        ring
      · have hfc : 0 < l * (c.costs ⟨⟨f, l, tn⟩, foot⟩).left :=
          mul_pos hpos hcl
        have habs : |l * (c.costs ⟨⟨f, l, tn⟩, foot⟩).left| =
            l * (c.costs ⟨⟨f, l, tn⟩, foot⟩).left := abs_of_pos hfc
        have hsg : sgn (l * (c.costs ⟨⟨f, l, tn⟩, foot⟩).left) = 1 := by
          simp [sgn, hfc.le]
        rw [habs, hsg]
        have hsplit : (l * (c.costs ⟨⟨f, l, tn⟩, foot⟩).left) ^
              c.translation_exponent =
            (l * (c.costs ⟨⟨f, l, tn⟩, foot⟩).left) ^
                (c.translation_exponent - 1) *
              (l * (c.costs ⟨⟨f, l, tn⟩, foot⟩).left) := by
          rw [show c.translation_exponent = (c.translation_exponent - 1) + 1 by ring,
            Real.rpow_add hfc, Real.rpow_one]
          norm_num
        rw [hsplit]
        have hfne : l * (c.costs ⟨⟨f, l, tn⟩, foot⟩).left ≠ 0 := ne_of_gt hfc
        field_simp
        ring
  · simp only [dual_step_size_loss, dual_walk_volume, dpowi6, dpowf, dabs, dmul,
      dadd, Dual.const, stepSizeGrad, walk_volume_gradient, walk_volume,
      penalty_function_derivative, Step.scale, rpow_fun_eq]
    by_cases htn : tn = 0
    · rw [if_pos htn]
      subst htn
      simp only [zero_mul, mul_zero, zero_add, add_zero, abs_zero]
      rw [Real.zero_rpow hr1]
      ring
    · rw [if_neg htn]
      rcases lt_or_gt_of_ne htn with hneg | hpos
      · have hfc : tn * (c.costs ⟨⟨f, l, tn⟩, foot⟩).turn < 0 :=
          mul_neg_of_neg_of_pos hneg hct
        have habs : |tn * (c.costs ⟨⟨f, l, tn⟩, foot⟩).turn| =
            -(tn * (c.costs ⟨⟨f, l, tn⟩, foot⟩).turn) := abs_of_neg hfc
        have hsg : sgn (tn * (c.costs ⟨⟨f, l, tn⟩, foot⟩).turn) = -1 := by
          simp [sgn, not_le.mpr hfc]
        rw [habs, hsg]
        have hsplit : (-(tn * (c.costs ⟨⟨f, l, tn⟩, foot⟩).turn)) ^
              c.rotation_exponent =
            (-(tn * (c.costs ⟨⟨f, l, tn⟩, foot⟩).turn)) ^
                (c.rotation_exponent - 1) *
              (-(tn * (c.costs ⟨⟨f, l, tn⟩, foot⟩).turn)) := by
          rw [show c.rotation_exponent = (c.rotation_exponent - 1) + 1 by ring,
            Real.rpow_add (by linarith), Real.rpow_one]
          norm_num
        rw [hsplit]
        have hfne : tn * (c.costs ⟨⟨f, l, tn⟩, foot⟩).turn ≠ 0 := ne_of_lt hfc
        field_simp
        ring
      · have hfc : 0 < tn * (c.costs ⟨⟨f, l, tn⟩, foot⟩).turn :=
          mul_pos hpos hct
        have habs : |tn * (c.costs ⟨⟨f, l, tn⟩, foot⟩).turn| =
            tn * (c.costs ⟨⟨f, l, tn⟩, foot⟩).turn := abs_of_pos hfc
        have hsg : sgn (tn * (c.costs ⟨⟨f, l, tn⟩, foot⟩).turn) = 1 := by
          simp [sgn, hfc.le]
        rw [habs, hsg]
        have hsplit : (tn * (c.costs ⟨⟨f, l, tn⟩, foot⟩).turn) ^
              c.rotation_exponent =
            (tn * (c.costs ⟨⟨f, l, tn⟩, foot⟩).turn) ^
                (c.rotation_exponent - 1) *
              (tn * (c.costs ⟨⟨f, l, tn⟩, foot⟩).turn) := by
          rw [show c.rotation_exponent = (c.rotation_exponent - 1) + 1 by ring,
            Real.rpow_add hfc, Real.rpow_one]
          norm_num
        rw [hsplit]
        have hfne : tn * (c.costs ⟨⟨f, l, tn⟩, foot⟩).turn ≠ 0 := ne_of_gt hfc
        field_simp
        ring

/-- Claim C1 witness: the gradient/dual agreement at unit costs, exponents
`t = r = 2`, and the step `(1, 1, 1)` with support foot `Left`. -/
theorem step_size_grad_agrees_dual_witness :
    (0 : ℝ) < 1 ∧ (1 : ℝ) < 2 ∧
      (dual_step_size_loss Real.rpow ⟨1, 1⟩ ⟨1, 0⟩ ⟨1, 0⟩ Side.Left
          ⟨1, 1, 1, 1, 1, 1, 2, 2⟩).du =
        (stepSizeGrad Real.rpow ⟨1, 1, 1, 1, 1, 1, 2, 2⟩
          ⟨⟨1, 1, 1⟩, Side.Left⟩).forward :=
  ⟨one_pos, one_lt_two,
    (step_size_grad_agrees_dual ⟨1, 1, 1, 1, 1, 1, 2, 2⟩ ⟨⟨1, 1, 1⟩, Side.Left⟩
      one_pos one_pos one_pos one_pos one_pos one_pos one_lt_two one_lt_two
      le_rfl).2.2.1⟩

theorem foldl_min_spec {α : Type} (key : α → K) :
    ∀ (xs : List α) (x : α),
      ∃ pre z post, x :: xs = pre ++ z :: post ∧
        xs.foldl (fun acc y => if key y < key acc then y else acc) x = z ∧
        key z ≤ key x ∧ (∀ y ∈ pre, key z < key y) ∧ (∀ y ∈ post, key z ≤ key y) := by
  intro xs
  induction xs with
  | nil =>
    intro x
    exact ⟨[], x, [], rfl, rfl, le_refl _, by simp, by simp⟩
  | cons y ys ih =>
    intro x
    have hstep : (y :: ys).foldl (fun acc d => if key d < key acc then d else acc) x =
        ys.foldl (fun acc d => if key d < key acc then d else acc)
          (if key y < key x then y else x) := by
      simp [List.foldl_cons]
    by_cases hxy : key y < key x
    · obtain ⟨pre, z, post, hdec, hfold, hle, hpre, hpost⟩ := ih y
      refine ⟨x :: pre, z, post, ?_, ?_, le_of_lt (lt_of_le_of_lt hle hxy), ?_, hpost⟩
      · rw [List.cons_append, ← hdec]
      · rw [hstep, if_pos hxy, hfold]
      · intro a ha
        rcases List.mem_cons.mp ha with ha | ha
        · rw [ha]
          exact lt_of_le_of_lt hle hxy
        · exact hpre a ha
    · obtain ⟨pre, z, post, hdec, hfold, hle, hpre, hpost⟩ := ih x
      cases pre with
      | nil =>
        simp only [List.nil_append] at hdec
        injection hdec with hdx hdy
        refine ⟨[], z, y :: post, ?_, ?_, hle, by simp, ?_⟩
        · rw [List.nil_append, ← hdx, hdy]
        · rw [hstep, if_neg hxy, hfold]
        · intro a ha
          rcases List.mem_cons.mp ha with ha | ha
          · rw [ha]
            exact le_trans hle (not_lt.mp hxy)
          · exact hpost a ha
      | cons b pre' =>
        simp only [List.cons_append] at hdec
        injection hdec with hdx hdy
        refine ⟨x :: y :: pre', z, post, ?_, ?_, hle, ?_, hpost⟩
        · rw [List.cons_append, List.cons_append, ← hdy]
        · rw [hstep, if_neg hxy, hfold]
        · intro a ha
          have hbx : key z < key x := by
            have := hpre b (List.mem_cons_self b pre')
            rw [← hdx] at this
            exact this
          rcases List.mem_cons.mp ha with ha | ha
          · rw [ha]
            exact hbx
          · rcases List.mem_cons.mp ha with ha | ha
            · rw [ha]
              exact lt_of_lt_of_le hbx (not_lt.mp hxy)
            · exact hpre a (List.mem_cons_of_mem b ha)

theorem map_split {α β : Type} (f : α → β) :
    ∀ (l : List α) (pre : List β) (z : β) (post : List β),
      l.map f = pre ++ z :: post →
      ∃ lpre x lpost, l = lpre ++ x :: lpost ∧ pre = lpre.map f ∧ z = f x ∧
        post = lpost.map f := by
  intro l
  induction l with
  | nil =>
    intro pre z post h
    rw [List.map_nil] at h
    cases pre <;> simp at h
  | cons a l' ih =>
    intro pre z post h
    cases pre with
    | nil =>
      rw [List.map_cons, List.nil_append] at h
      injection h with h1 h2
      exact ⟨[], a, l', rfl, rfl, h1.symm, h2.symm⟩
    | cons b pre' =>
      rw [List.map_cons, List.cons_append] at h
      injection h with h1 h2
      obtain ⟨lpre, x, lpost, hl, hp, hz, hpo⟩ := ih pre' z post h2
      refine ⟨a :: lpre, x, lpost, by rw [hl, List.cons_append], ?_, hz, hpo⟩
      rw [List.map_cons, hp, h1]

theorem progressTriples_proj (P : Prims K) (p : Vec2 K) :
    ∀ (segs : List (PathSegment K)) (a : K),
      (progressTriples P p segs a).map (fun t => t.2.1) = segs := by
  intro segs
  induction segs with
  | nil => intro a; rfl
  | cons s rest ih =>
    intro a
    rw [progressTriples, List.map_cons, ih]

theorem progressTriples_key (P : Prims K) (p : Vec2 K) :
    ∀ (segs : List (PathSegment K)) (a : K) (t : K × PathSegment K × K),
      t ∈ progressTriples P p segs a →
      t.2.2 = normSq (vsub (PathSegment.project P t.2.1 p) p) := by
  intro segs
  induction segs with
  | nil =>
    intro a t ht
    simp [progressTriples] at ht
  | cons s rest ih =>
    intro a t ht
    rw [progressTriples] at ht
    rcases List.mem_cons.mp ht with ht | ht
    · rw [ht]
    · exact ih _ _ ht

theorem progressTriples_split (P : Prims K) (p : Vec2 K) :
    ∀ (preT : List (K × PathSegment K × K)) (segs : List (PathSegment K)) (a : K)
      (zT : K × PathSegment K × K) (postT : List (K × PathSegment K × K)),
      progressTriples P p segs a = preT ++ zT :: postT →
      zT.1 = a + ((preT.map fun t => PathSegment.length P t.2.1)).sum ∧
      segs = (preT.map fun t => t.2.1) ++ zT.2.1 :: (postT.map fun t => t.2.1) := by
  intro preT
  induction preT with
  | nil =>
    intro segs a zT postT h
    cases segs with
    | nil => simp [progressTriples] at h
    | cons s rest =>
      rw [progressTriples, List.nil_append] at h
      injection h with h1 h2
      constructor
      · rw [← h1]
        simp
      · rw [List.map_nil, List.nil_append, ← h1, ← h2, progressTriples_proj]
  | cons t0 preT' ih =>
    intro segs a zT postT h
    cases segs with
    | nil => simp [progressTriples] at h
    | cons s rest =>
      rw [progressTriples, List.cons_append] at h
      injection h with h1 h2
      obtain ⟨ihz, ihsegs⟩ := ih rest (a + PathSegment.length P s) zT postT h2
      constructor
      · rw [ihz, List.map_cons, List.sum_cons, ← h1]
        ring
      · rw [List.map_cons, List.cons_append, ← h1, ← ihsegs]

theorem first_min_decomp_unique {α : Type} (key : α → K) :
    ∀ (l pre₁ : List α) (z₁ : α) (post₁ pre₂ : List α) (z₂ : α) (post₂ : List α),
      l = pre₁ ++ z₁ :: post₁ → l = pre₂ ++ z₂ :: post₂ →
      (∀ y ∈ pre₁, key z₁ < key y) → (∀ y ∈ post₁, key z₁ ≤ key y) →
      (∀ y ∈ pre₂, key z₂ < key y) → (∀ y ∈ post₂, key z₂ ≤ key y) →
      pre₁ = pre₂ ∧ z₁ = z₂ ∧ post₁ = post₂ := by
  intro l
  induction l with
  | nil =>
    intro pre₁ z₁ post₁ pre₂ z₂ post₂ h1 _ _ _ _ _
    cases pre₁ <;> simp at h1
  | cons a l' ih =>
    intro pre₁ z₁ post₁ pre₂ z₂ post₂ h1 h2 hp1 hq1 hp2 hq2
    cases pre₁ with
    | nil =>
      cases pre₂ with
      | nil =>
        rw [List.nil_append] at h1 h2
        injection h1 with h1a h1b
        injection h2 with h2a h2b
        exact ⟨rfl, by rw [← h1a, ← h2a], by rw [← h1b, ← h2b]⟩
      | cons b pre₂' =>
        rw [List.nil_append] at h1
        rw [List.cons_append] at h2
        injection h1 with h1a h1b
        injection h2 with h2a h2b
        exfalso
        have hz2mem : z₂ ∈ post₁ := by
          rw [← h1b, h2b]
          exact List.mem_append_right _ (List.mem_cons_self _ _)
        have hle : key z₁ ≤ key z₂ := hq1 _ hz2mem
        have hlt : key z₂ < key z₁ := by
          have := hp2 b (List.mem_cons_self b pre₂')
          rw [← h2a, h1a] at this
          exact this
        exact absurd hle (not_le.mpr hlt)
    | cons b pre₁' =>
      cases pre₂ with
      | nil =>
        rw [List.cons_append] at h1
        rw [List.nil_append] at h2
        injection h1 with h1a h1b
        injection h2 with h2a h2b
        exfalso
        have hz1mem : z₁ ∈ post₂ := by
          rw [← h2b, h1b]
          exact List.mem_append_right _ (List.mem_cons_self _ _)
        have hle : key z₂ ≤ key z₁ := hq2 _ hz1mem
        have hlt : key z₁ < key z₂ := by
          have := hp1 b (List.mem_cons_self b pre₁')
          rw [← h1a, h2a] at this
          exact this
        exact absurd hle (not_le.mpr hlt)
      | cons d pre₂' =>
        rw [List.cons_append] at h1 h2
        injection h1 with h1a h1b
        injection h2 with h2a h2b
        obtain ⟨he1, he2, he3⟩ := ih pre₁' z₁ post₁ pre₂' z₂ post₂ h1b h2b
          (fun y hy => hp1 y (List.mem_cons_of_mem b hy)) hq1
          (fun y hy => hp2 y (List.mem_cons_of_mem d hy)) hq2
        exact ⟨by rw [he1, ← h1a, ← h2a], he2, he3⟩

theorem path_selection (P : Prims K) (path : Path K) (p : Vec2 K)
    (hne : path.segments ≠ []) :
    ∃ pre seg post,
      path.segments = pre ++ seg :: post ∧
      (∀ s' ∈ pre, normSq (vsub (PathSegment.project P seg p) p) <
        normSq (vsub (PathSegment.project P s' p) p)) ∧
      (∀ s' ∈ post, normSq (vsub (PathSegment.project P seg p) p) ≤
        normSq (vsub (PathSegment.project P s' p) p)) ∧
      Path.project P path p = some (PathSegment.project P seg p) ∧
      Path.progress P path p =
        some ((pre.map (PathSegment.length P)).sum + PathSegment.progress P seg p) := by
  obtain ⟨s0, rest, hsegs⟩ : ∃ s0 rest, path.segments = s0 :: rest := by
    cases h : path.segments with
    | nil => exact absurd h hne
    | cons s0 rest => exact ⟨s0, rest, rfl⟩
  -- project side
  obtain ⟨preM, zM, postM, hdecM, hfoldM, -, hpreM, hpostM⟩ :=
    foldl_min_spec (Prod.snd : Vec2 K × K → K)
      (rest.map fun seg =>
        (PathSegment.project P seg p, normSq (vsub (PathSegment.project P seg p) p)))
      (PathSegment.project P s0 p, normSq (vsub (PathSegment.project P s0 p) p))
  have hmapdec : (s0 :: rest).map (fun seg =>
      (PathSegment.project P seg p, normSq (vsub (PathSegment.project P seg p) p))) =
      preM ++ zM :: postM := by
    rw [List.map_cons, hdecM]
  obtain ⟨lpre, x, lpost, hldec, hpreEq, hzEq, hpostEq⟩ :=
    map_split _ (s0 :: rest) preM zM postM hmapdec
  have hproj : Path.project P path p = some (PathSegment.project P x p) := by
    unfold Path.project
    rw [hsegs, List.map_cons, minByKeyFirst]
    rw [hfoldM, hzEq]
    rfl
  -- progress side
  obtain ⟨preT, zT, postT, hdecT, hfoldT, -, hpreT, hpostT⟩ :=
    foldl_min_spec (fun t : K × PathSegment K × K => t.2.2)
      (progressTriples P p rest (0 + PathSegment.length P s0))
      (0, s0, normSq (vsub (PathSegment.project P s0 p) p))
  have htridec : progressTriples P p (s0 :: rest) 0 = preT ++ zT :: postT := by
    rw [progressTriples, hdecT]
  obtain ⟨hzT1, hsegdec2⟩ := progressTriples_split P p preT (s0 :: rest) 0 zT postT htridec
  have hprog : Path.progress P path p =
      some (zT.1 + PathSegment.progress P zT.2.1 p) := by
    unfold Path.progress
    rw [hsegs, progressTriples, minByKeyFirst]
    rw [hfoldT]
    rfl
  -- the two segment-level decompositions agree
  have hstrict1 : ∀ s' ∈ lpre, normSq (vsub (PathSegment.project P x p) p) <
      normSq (vsub (PathSegment.project P s' p) p) := by
    intro s' hs'
    have hmem : (PathSegment.project P s' p,
        normSq (vsub (PathSegment.project P s' p) p)) ∈ preM := by
      rw [hpreEq]
      exact List.mem_map_of_mem _ hs'
    have := hpreM _ hmem
    rw [hzEq] at this
    exact this
  have hweak1 : ∀ s' ∈ lpost, normSq (vsub (PathSegment.project P x p) p) ≤
      normSq (vsub (PathSegment.project P s' p) p) := by
    intro s' hs'
    have hmem : (PathSegment.project P s' p,
        normSq (vsub (PathSegment.project P s' p) p)) ∈ postM := by
      rw [hpostEq]
      exact List.mem_map_of_mem _ hs'
    have := hpostM _ hmem
    rw [hzEq] at this
    exact this
  have hzTkey : zT.2.2 = normSq (vsub (PathSegment.project P zT.2.1 p) p) :=
    progressTriples_key P p (s0 :: rest) 0 zT
      (by rw [htridec]; exact List.mem_append_right _ (List.mem_cons_self _ _))
  have hstrict2 : ∀ s' ∈ preT.map (fun t : K × PathSegment K × K => t.2.1),
      normSq (vsub (PathSegment.project P zT.2.1 p) p) <
        normSq (vsub (PathSegment.project P s' p) p) := by
    intro s' hs'
    obtain ⟨t, ht, rfl⟩ := List.mem_map.mp hs'
    have hkey := progressTriples_key P p (s0 :: rest) 0 t
      (by rw [htridec]; exact List.mem_append_left _ ht)
    have := hpreT t ht
    rw [hkey, hzTkey] at this
    exact this
  have hweak2 : ∀ s' ∈ postT.map (fun t : K × PathSegment K × K => t.2.1),
      normSq (vsub (PathSegment.project P zT.2.1 p) p) ≤
        normSq (vsub (PathSegment.project P s' p) p) := by
    intro s' hs'
    obtain ⟨t, ht, rfl⟩ := List.mem_map.mp hs'
    have hkey := progressTriples_key P p (s0 :: rest) 0 t
      (by rw [htridec]; exact List.mem_append_right _ (List.mem_cons_of_mem _ ht))
    have := hpostT t ht
    rw [hkey, hzTkey] at this
    exact this
  obtain ⟨heq1, heq2, heq3⟩ := first_min_decomp_unique
    (fun seg => normSq (vsub (PathSegment.project P seg p) p)) (s0 :: rest)
    lpre x lpost (preT.map fun t => t.2.1) zT.2.1 (postT.map fun t => t.2.1)
    hldec hsegdec2 hstrict1 hweak1 hstrict2 hweak2
  refine ⟨lpre, x, lpost, by rw [hsegs, hldec], hstrict1, hweak1, hproj, ?_⟩
  rw [hprog, hzT1, heq2]
  congr 1
  rw [heq1, List.map_map, zero_add]
  rfl

/-- Claim C4: `Path::progress` selects the same nearest segment as
`Path::project` (first minimum of the per-segment squared distances, strict
against every earlier segment, weak against every later one) and returns the
sum of the lengths of all segments preceding it plus that segment's local
progress; `Path::project` returns that same segment's projection. -/
theorem path_progress_spec (P : Prims K) (path : Path K) (p : Vec2 K)
    (hne : path.segments ≠ []) :
    ∃ pre seg post,
      path.segments = pre ++ seg :: post ∧
      (∀ s' ∈ pre, normSq (vsub (PathSegment.project P seg p) p) <
        normSq (vsub (PathSegment.project P s' p) p)) ∧
      (∀ s' ∈ post, normSq (vsub (PathSegment.project P seg p) p) ≤
        normSq (vsub (PathSegment.project P s' p) p)) ∧
      Path.project P path p = some (PathSegment.project P seg p) ∧
      Path.progress P path p =
        some ((pre.map (PathSegment.length P)).sum + PathSegment.progress P seg p) :=
  path_selection P path p hne

/-- Claim C4 witness: the progress decomposition on a concrete one-segment
path over `ℚ` with trivial primitives. -/
theorem path_progress_spec_witness :
    (Path.mk [PathSegment.line ⟨(0, 0), (1, 0)⟩] : Path ℚ).segments ≠ [] ∧
      ∃ pre seg post,
        (Path.mk [PathSegment.line ⟨(0, 0), (1, 0)⟩] : Path ℚ).segments =
          pre ++ seg :: post ∧
        (∀ s' ∈ pre,
          normSq (vsub (PathSegment.project
              (⟨0, id, id, id, fun _ _ => 0, fun _ => 0⟩ : Prims ℚ) seg ((2, 3) : Vec2 ℚ))
              ((2, 3) : Vec2 ℚ)) <
          normSq (vsub (PathSegment.project
              (⟨0, id, id, id, fun _ _ => 0, fun _ => 0⟩ : Prims ℚ) s' ((2, 3) : Vec2 ℚ))
              ((2, 3) : Vec2 ℚ))) ∧
        (∀ s' ∈ post,
          normSq (vsub (PathSegment.project
              (⟨0, id, id, id, fun _ _ => 0, fun _ => 0⟩ : Prims ℚ) seg ((2, 3) : Vec2 ℚ))
              ((2, 3) : Vec2 ℚ)) ≤
          normSq (vsub (PathSegment.project
              (⟨0, id, id, id, fun _ _ => 0, fun _ => 0⟩ : Prims ℚ) s' ((2, 3) : Vec2 ℚ))
              ((2, 3) : Vec2 ℚ))) ∧
        Path.project (⟨0, id, id, id, fun _ _ => 0, fun _ => 0⟩ : Prims ℚ)
            (Path.mk [PathSegment.line ⟨(0, 0), (1, 0)⟩]) ((2, 3) : Vec2 ℚ) =
          some (PathSegment.project (⟨0, id, id, id, fun _ _ => 0, fun _ => 0⟩ : Prims ℚ)
            seg ((2, 3) : Vec2 ℚ)) ∧
        Path.progress (⟨0, id, id, id, fun _ _ => 0, fun _ => 0⟩ : Prims ℚ)
            (Path.mk [PathSegment.line ⟨(0, 0), (1, 0)⟩]) ((2, 3) : Vec2 ℚ) =
          some ((pre.map (PathSegment.length
              (⟨0, id, id, id, fun _ _ => 0, fun _ => 0⟩ : Prims ℚ))).sum +
            PathSegment.progress (⟨0, id, id, id, fun _ _ => 0, fun _ => 0⟩ : Prims ℚ)
              seg ((2, 3) : Vec2 ℚ)) := by
  refine ⟨by simp, ?_⟩
  exact path_progress_spec (⟨0, id, id, id, fun _ _ => 0, fun _ => 0⟩ : Prims ℚ)
    (Path.mk [PathSegment.line ⟨(0, 0), (1, 0)⟩]) ((2, 3) : Vec2 ℚ) (by simp)

theorem normSq_nonneg (v : Vec2 K) : 0 ≤ normSq v :=
  add_nonneg (mul_self_nonneg _) (mul_self_nonneg _)

theorem normSq_eq_zero_iff (v : Vec2 K) : normSq v = 0 ↔ v.1 = 0 ∧ v.2 = 0 := by
  constructor
  · intro h
    unfold normSq at h
    have h1 : v.1 * v.1 = 0 :=
      le_antisymm (by nlinarith [mul_self_nonneg v.2]) (mul_self_nonneg _)
    have h2 : v.2 * v.2 = 0 :=
      le_antisymm (by nlinarith [mul_self_nonneg v.1]) (mul_self_nonneg _)
    exact ⟨mul_self_eq_zero.mp h1, mul_self_eq_zero.mp h2⟩
  · rintro ⟨h1, h2⟩
    unfold normSq
    rw [h1, h2]
    ring

theorem normSq_affine (p0 w p : Vec2 K) (c : K) :
    normSq (vsub (vadd p0 (smul c w)) p) =
      c * c * normSq w - 2 * c * dot (vsub p p0) w + normSq (vsub p p0) := by
  unfold normSq vsub vadd smul dot
  ring

theorem clamp_quadratic_min (A D C u : K) (hA : 0 ≤ A) (hzero : A = 0 → D = 0)
    (hu0 : 0 ≤ u) (hu1 : u ≤ 1) :
    min (max (D / A) 0) 1 * min (max (D / A) 0) 1 * A -
        2 * min (max (D / A) 0) 1 * D + C ≤
      u * u * A - 2 * u * D + C := by
  rcases eq_or_lt_of_le hA with hA0 | hApos
  · rw [← hA0, hzero hA0.symm]
    simp
  · have hDA : D / A * A = D := div_mul_cancel₀ D (ne_of_gt hApos)
    rcases le_or_lt (D / A) 0 with h0 | h0
    · rw [max_eq_right h0, min_eq_left zero_le_one]
      have hD : D ≤ 0 := by
        nlinarith [mul_nonpos_of_nonpos_of_nonneg h0 (le_of_lt hApos)]
      nlinarith [mul_nonneg hu0 (mul_nonneg hu0 (le_of_lt hApos)),
        mul_nonneg hu0 (neg_nonneg.mpr hD)]
    · rcases le_or_lt 1 (D / A) with h1 | h1
      · rw [max_eq_left (le_of_lt h0), min_eq_right h1]
        have hAD : A ≤ D := by
          nlinarith [mul_le_mul_of_nonneg_right h1 (le_of_lt hApos)]
        have huA : u * A ≤ A := by
          nlinarith
        nlinarith [mul_nonneg (sub_nonneg.mpr hu1)
          (by nlinarith : (0 : K) ≤ 2 * D - (u + 1) * A)]
      · rw [max_eq_left (le_of_lt h0), min_eq_left (le_of_lt h1)]
        nlinarith [mul_nonneg (le_of_lt hApos) (mul_self_nonneg (u - D / A)), hDA]

theorem line_project_contains (seg : LineSegment K) (p : Vec2 K) :
    seg.contains (seg.project p) := by
  refine ⟨min (max (dot (vsub p seg.p0) (vsub seg.p1 seg.p0) /
      normSq (vsub seg.p1 seg.p0)) 0) 1, ?_, ?_, rfl⟩
  · exact le_min (le_max_right _ 0) zero_le_one
  · exact min_le_right _ 1

theorem line_project_nearest (seg : LineSegment K) (p q : Vec2 K)
    (hq : seg.contains q) :
    normSq (vsub (seg.project p) p) ≤ normSq (vsub q p) := by
  obtain ⟨u, hu0, hu1, hqe⟩ := hq
  rw [hqe]
  show normSq (vsub (vadd seg.p0 (smul _ (vsub seg.p1 seg.p0))) p) ≤ _
  rw [normSq_affine, normSq_affine]
  apply clamp_quadratic_min _ _ _ _ (normSq_nonneg _) _ hu0 hu1
  intro hz
  obtain ⟨h1, h2⟩ := (normSq_eq_zero_iff _).mp hz
  unfold dot
  rw [h1, h2]
  ring

theorem classify_point_iff_onArc (P : Prims K) (arc : Arc K) (p : Vec2 K) :
    arc.classify_point P p = ArcProjectionKind.OnArc ↔
      angle_to P arc.start
          (P.atan2 (vsub p arc.circle.center).2 (vsub p arc.circle.center).1)
          arc.direction <
        angle_to P arc.start arc.stop arc.direction := by
  unfold Arc.classify_point
  dsimp only
  split_ifs with h1 h2 <;> simp [h1]

theorem classify_point_iff_start (P : Prims K) (arc : Arc K) (p : Vec2 K) :
    arc.classify_point P p = ArcProjectionKind.Start ↔
      (¬ angle_to P arc.start
          (P.atan2 (vsub p arc.circle.center).2 (vsub p arc.circle.center).1)
          arc.direction <
        angle_to P arc.start arc.stop arc.direction) ∧
      normSq (vsub p (point_at_angle P arc.circle arc.start)) <
        normSq (vsub p (point_at_angle P arc.circle arc.stop)) := by
  unfold Arc.classify_point
  dsimp only
  split_ifs with h1 h2 <;> simp_all

theorem classify_point_iff_end (P : Prims K) (arc : Arc K) (p : Vec2 K) :
    arc.classify_point P p = ArcProjectionKind.End ↔
      (¬ angle_to P arc.start
          (P.atan2 (vsub p arc.circle.center).2 (vsub p arc.circle.center).1)
          arc.direction <
        angle_to P arc.start arc.stop arc.direction) ∧
      ¬ normSq (vsub p (point_at_angle P arc.circle arc.start)) <
        normSq (vsub p (point_at_angle P arc.circle arc.stop)) := by
  unfold Arc.classify_point
  dsimp only
  split_ifs with h1 h2 <;> simp_all

theorem normSq_vsub_comm (a b : Vec2 K) : normSq (vsub a b) = normSq (vsub b a) := by
  unfold normSq vsub
  ring

theorem normalizedAngle_nonneg (P : Prims ℝ) (hpi : P.pi = Real.pi)
    (hflr : ∀ y, P.flr y = ⌊y⌋) (x : ℝ) : 0 ≤ normalizedAngle P x := by
  rw [normalizedAngle_eq_fract P hpi hflr]
  have := Int.fract_nonneg (x / (2 * Real.pi))
  positivity

theorem normalizedAngle_lt_two_pi (P : Prims ℝ) (hpi : P.pi = Real.pi)
    (hflr : ∀ y, P.flr y = ⌊y⌋) (x : ℝ) : normalizedAngle P x < 2 * Real.pi := by
  rw [normalizedAngle_eq_fract P hpi hflr]
  have h1 := Int.fract_lt_one (x / (2 * Real.pi))
  have h2 : (0 : ℝ) < 2 * Real.pi := by positivity
  nlinarith

theorem cos_normalizedAngle_sub (P : Prims ℝ) (hpi : P.pi = Real.pi)
    (hflr : ∀ y, P.flr y = ⌊y⌋) (x y : ℝ) :
    Real.cos (normalizedAngle P x - normalizedAngle P y) = Real.cos (x - y) := by
  unfold normalizedAngle
  rw [hpi, hflr, hflr]
  have hre : x - (⌊x / (2 * Real.pi)⌋ : ℤ) * (2 * Real.pi) -
      (y - (⌊y / (2 * Real.pi)⌋ : ℤ) * (2 * Real.pi)) =
      (x - y) - ((⌊x / (2 * Real.pi)⌋ - ⌊y / (2 * Real.pi)⌋ : ℤ)) * (2 * Real.pi) := by
    push_cast
    ring
  rw [hre, Real.cos_sub_int_mul_two_pi]

theorem angle_to_self (P : Prims ℝ) (hpi : P.pi = Real.pi)
    (hflr : ∀ y, P.flr y = ⌊y⌋) (a : ℝ) (dir : Direction) :
    angle_to P a a dir = 0 := by
  unfold angle_to
  rw [normalizedAngle_eq_fract P hpi hflr]
  have : (a - a) * Direction.angle_sign dir = 0 := by ring
  rw [this]
  simp

theorem cos_angle_to_sub (P : Prims ℝ) (hpi : P.pi = Real.pi)
    (hflr : ∀ y, P.flr y = ⌊y⌋) (start φ ψ : ℝ) (dir : Direction)
    (hdir : dir ≠ Direction.Colinear) :
    Real.cos (angle_to P start φ dir - angle_to P start ψ dir) =
      Real.cos (φ - ψ) := by
  unfold angle_to
  rw [cos_normalizedAngle_sub P hpi hflr]
  cases dir with
  | Clockwise =>
    have h : (φ - start) * Direction.angle_sign Direction.Clockwise -
        (ψ - start) * Direction.angle_sign Direction.Clockwise = -(φ - ψ) := by
      unfold Direction.angle_sign
      ring
    rw [h, Real.cos_neg]
  | Counterclockwise =>
    have h : (φ - start) * Direction.angle_sign Direction.Counterclockwise -
        (ψ - start) * Direction.angle_sign Direction.Counterclockwise = φ - ψ := by
      unfold Direction.angle_sign
      ring
    rw [h]
  | Colinear => exact absurd rfl hdir

theorem dist_sq_polar (r d θ ψ : ℝ) :
    (d * Real.cos ψ - r * Real.cos θ) * (d * Real.cos ψ - r * Real.cos θ) +
      (d * Real.sin ψ - r * Real.sin θ) * (d * Real.sin ψ - r * Real.sin θ) =
      r ^ 2 + d ^ 2 - 2 * r * d * Real.cos (θ - ψ) := by
  rw [Real.cos_sub]
  linear_combination r ^ 2 * Real.sin_sq_add_cos_sq θ + d ^ 2 * Real.sin_sq_add_cos_sq ψ

theorem normSq_vsub_point_at_angle (P : Prims ℝ) (hcos : P.cos = Real.cos)
    (hsin : P.sin = Real.sin) (c : Circle ℝ) (θ : ℝ) (p : Vec2 ℝ) (d ψ : ℝ)
    (hp1 : p.1 - c.center.1 = d * Real.cos ψ) (hp2 : p.2 - c.center.2 = d * Real.sin ψ) :
    normSq (vsub p (point_at_angle P c θ)) =
      c.radius ^ 2 + d ^ 2 - 2 * c.radius * d * Real.cos (θ - ψ) := by
  unfold normSq vsub point_at_angle vadd
  rw [hcos, hsin]
  have e1 : p.1 - (c.center.1 + Real.cos θ * c.radius) =
      d * Real.cos ψ - c.radius * Real.cos θ := by
    linear_combination hp1
  have e2 : p.2 - (c.center.2 + Real.sin θ * c.radius) =
      d * Real.sin ψ - c.radius * Real.sin θ := by
    linear_combination hp2
  rw [e1, e2, dist_sq_polar]

theorem sqrt_normSq_eq_abs (v : Vec2 ℝ) :
    Real.sqrt (normSq v) = Complex.abs ⟨v.1, v.2⟩ := by
  rw [Complex.abs_apply, Complex.normSq_mk]
  rfl

theorem cos_le_max_endpoints (lo hi u : ℝ) (h0 : 0 ≤ lo) (hlo : lo ≤ u)
    (hu : u ≤ hi) (hhi : hi < 2 * Real.pi) :
    Real.cos u ≤ max (Real.cos lo) (Real.cos hi) := by
  rcases le_or_lt u Real.pi with hc | hc
  · exact le_max_of_le_left (Real.cos_le_cos_of_nonneg_of_le_pi h0 hc hlo)
  · have h1 : Real.cos u = Real.cos (2 * Real.pi - u) := (Real.cos_two_pi_sub u).symm
    have h2 : Real.cos hi = Real.cos (2 * Real.pi - hi) := (Real.cos_two_pi_sub hi).symm
    have h3 : Real.cos (2 * Real.pi - u) ≤ Real.cos (2 * Real.pi - hi) := by
      apply Real.cos_le_cos_of_nonneg_of_le_pi
      · linarith
      · linarith [Real.pi_pos]
      · linarith
    rw [h1]
    rw [h2] at *
    exact le_max_of_le_right h3

theorem polar_rep (p cc : Vec2 ℝ) (hp : ¬(p.1 - cc.1 = 0 ∧ p.2 - cc.2 = 0)) :
    0 < Complex.abs ⟨p.1 - cc.1, p.2 - cc.2⟩ ∧
      p.1 - cc.1 = Complex.abs ⟨p.1 - cc.1, p.2 - cc.2⟩ *
        Real.cos (Complex.arg ⟨p.1 - cc.1, p.2 - cc.2⟩) ∧
      p.2 - cc.2 = Complex.abs ⟨p.1 - cc.1, p.2 - cc.2⟩ *
        Real.sin (Complex.arg ⟨p.1 - cc.1, p.2 - cc.2⟩) := by
  have hz : (⟨p.1 - cc.1, p.2 - cc.2⟩ : ℂ) ≠ 0 := by
    intro hzero
    exact hp ⟨congrArg Complex.re hzero, congrArg Complex.im hzero⟩
  have habs : 0 < Complex.abs ⟨p.1 - cc.1, p.2 - cc.2⟩ := Complex.abs.pos hz
  refine ⟨habs, ?_, ?_⟩
  · rw [Complex.cos_arg hz]
    field_simp
  · rw [Complex.sin_arg]
    field_simp

theorem angle_to_nonneg (P : Prims ℝ) (hpi : P.pi = Real.pi)
    (hflr : ∀ y, P.flr y = ⌊y⌋) (a b : ℝ) (dir : Direction) :
    0 ≤ angle_to P a b dir := by
  unfold angle_to
  exact normalizedAngle_nonneg P hpi hflr _

theorem angle_to_lt_two_pi (P : Prims ℝ) (hpi : P.pi = Real.pi)
    (hflr : ∀ y, P.flr y = ⌊y⌋) (a b : ℝ) (dir : Direction) :
    angle_to P a b dir < 2 * Real.pi := by
  unfold angle_to
  exact normalizedAngle_lt_two_pi P hpi hflr _

theorem arc_project_contains (P : Prims ℝ) (hP : RealPrims P) (arc : Arc ℝ)
    (p : Vec2 ℝ)
    (hp : ¬((vsub p arc.circle.center).1 = 0 ∧ (vsub p arc.circle.center).2 = 0)) :
    arc.contains P (arc.project P p) := by
  obtain ⟨hpi, hcos, hsin, hsqrt, hat, hflr⟩ := hP
  obtain ⟨hd, h1, h2⟩ := polar_rep p arc.circle.center hp
  cases h : arc.classify_point P p with
  | OnArc =>
    have hA := (classify_point_iff_onArc P arc p).mp h
    have hatan : P.atan2 (vsub p arc.circle.center).2 (vsub p arc.circle.center).1 =
        Complex.arg ⟨p.1 - arc.circle.center.1, p.2 - arc.circle.center.2⟩ := by
      rw [hat]
      rfl
    refine ⟨Complex.arg ⟨p.1 - arc.circle.center.1, p.2 - arc.circle.center.2⟩,
      le_of_lt (by rw [← hatan]; exact hA), ?_⟩
    simp only [Arc.project, h]
    unfold normalize
    have hsq : Real.sqrt (normSq (vsub p arc.circle.center)) =
        Complex.abs ⟨p.1 - arc.circle.center.1, p.2 - arc.circle.center.2⟩ :=
      sqrt_normSq_eq_abs _
    rw [hsqrt, hsq]
    have hdne : Complex.abs ⟨p.1 - arc.circle.center.1, p.2 - arc.circle.center.2⟩ ≠ 0 :=
      ne_of_gt hd
    simp only [point_at_angle, vadd, smul, vsub, hcos, hsin]
    rw [Prod.mk.injEq]
    generalize hgD : Complex.abs
      ⟨p.1 - arc.circle.center.1, p.2 - arc.circle.center.2⟩ = D at h1 h2 hdne ⊢
    generalize hgC : Real.cos (Complex.arg
      ⟨p.1 - arc.circle.center.1, p.2 - arc.circle.center.2⟩) = CC at h1 ⊢
    generalize hgS : Real.sin (Complex.arg
      ⟨p.1 - arc.circle.center.1, p.2 - arc.circle.center.2⟩) = SS at h2 ⊢
    constructor
    · rw [h1]
      field_simp
      ring
    · rw [h2]
      field_simp
      ring
  | Start =>
    refine ⟨arc.start, ?_, ?_⟩
    · rw [angle_to_self P hpi hflr]
      exact angle_to_nonneg P hpi hflr _ _ _
    · simp only [Arc.project, h]
  | End =>
    exact ⟨arc.stop, le_refl _, by simp only [Arc.project, h]⟩

set_option maxHeartbeats 1000000 in
theorem arc_project_nearest (P : Prims ℝ) (hP : RealPrims P) (arc : Arc ℝ)
    (p q : Vec2 ℝ) (hrad : 0 < arc.circle.radius)
    (hdir : arc.direction ≠ Direction.Colinear)
    (hp : ¬((vsub p arc.circle.center).1 = 0 ∧ (vsub p arc.circle.center).2 = 0))
    (hq : arc.contains P q) :
    normSq (vsub (arc.project P p) p) ≤ normSq (vsub q p) := by
  obtain ⟨hpi, hcos, hsin, hsqrt, hat, hflr⟩ := hP
  obtain ⟨φ, hφE, hqe⟩ := hq
  obtain ⟨hd, h1, h2⟩ := polar_rep p arc.circle.center hp
  have hatan : P.atan2 (vsub p arc.circle.center).2 (vsub p arc.circle.center).1 =
      Complex.arg ⟨p.1 - arc.circle.center.1, p.2 - arc.circle.center.2⟩ := by
    rw [hat]
    rfl
  have hprojOn : arc.classify_point P p = ArcProjectionKind.OnArc →
      normSq (vsub (arc.project P p) p) =
        (arc.circle.radius -
          Complex.abs ⟨p.1 - arc.circle.center.1, p.2 - arc.circle.center.2⟩) ^ 2 := by
    intro h
    simp only [Arc.project, h]
    unfold normalize
    have hsq : Real.sqrt (normSq (vsub p arc.circle.center)) =
        Complex.abs ⟨p.1 - arc.circle.center.1, p.2 - arc.circle.center.2⟩ :=
      sqrt_normSq_eq_abs _
    rw [hsqrt, hsq]
    simp only [normSq, vsub, vadd, smul]
    have hdne : Complex.abs ⟨p.1 - arc.circle.center.1, p.2 - arc.circle.center.2⟩ ≠ 0 :=
      ne_of_gt hd
    have hpyth : Real.sin (Complex.arg
          ⟨p.1 - arc.circle.center.1, p.2 - arc.circle.center.2⟩) ^ 2 +
        Real.cos (Complex.arg
          ⟨p.1 - arc.circle.center.1, p.2 - arc.circle.center.2⟩) ^ 2 = 1 :=
      Real.sin_sq_add_cos_sq _
    generalize hgD : Complex.abs
      ⟨p.1 - arc.circle.center.1, p.2 - arc.circle.center.2⟩ = D at h1 h2 hdne ⊢
    generalize hgC : Real.cos (Complex.arg
      ⟨p.1 - arc.circle.center.1, p.2 - arc.circle.center.2⟩) = CC at h1 hpyth ⊢
    generalize hgS : Real.sin (Complex.arg
      ⟨p.1 - arc.circle.center.1, p.2 - arc.circle.center.2⟩) = SS at h2 hpyth ⊢
    have e1 : arc.circle.center.1 + arc.circle.radius *
          ((p.1 - arc.circle.center.1) / D) - p.1 =
        CC * (arc.circle.radius - D) := by
      field_simp
      linear_combination (arc.circle.radius - D) * h1
    have e2 : arc.circle.center.2 + arc.circle.radius *
          ((p.2 - arc.circle.center.2) / D) - p.2 =
        SS * (arc.circle.radius - D) := by
      field_simp
      linear_combination (arc.circle.radius - D) * h2
    rw [e1, e2]
    linear_combination ((arc.circle.radius - D) ^ 2) * hpyth
  generalize hgψ : Complex.arg
    ⟨p.1 - arc.circle.center.1, p.2 - arc.circle.center.2⟩ = ψv at h1 h2 hatan
  generalize hgD : Complex.abs
    ⟨p.1 - arc.circle.center.1, p.2 - arc.circle.center.2⟩ = Dv at h1 h2 hd hprojOn
  have hdq : normSq (vsub q p) =
      arc.circle.radius ^ 2 + Dv ^ 2 -
        2 * arc.circle.radius * Dv * Real.cos (φ - ψv) := by
    rw [hqe, normSq_vsub_comm]
    exact normSq_vsub_point_at_angle P hcos hsin arc.circle φ p Dv ψv h1 h2
  have hds : normSq (vsub p (point_at_angle P arc.circle arc.start)) =
      arc.circle.radius ^ 2 + Dv ^ 2 -
        2 * arc.circle.radius * Dv * Real.cos (arc.start - ψv) :=
    normSq_vsub_point_at_angle P hcos hsin arc.circle arc.start p Dv ψv h1 h2
  have hde : normSq (vsub p (point_at_angle P arc.circle arc.stop)) =
      arc.circle.radius ^ 2 + Dv ^ 2 -
        2 * arc.circle.radius * Dv * Real.cos (arc.stop - ψv) :=
    normSq_vsub_point_at_angle P hcos hsin arc.circle arc.stop p Dv ψv h1 h2
  have hcq : Real.cos (φ - ψv) =
      Real.cos (angle_to P arc.start φ arc.direction -
        angle_to P arc.start ψv arc.direction) :=
    (cos_angle_to_sub P hpi hflr arc.start φ ψv arc.direction hdir).symm
  have hcs : Real.cos (arc.start - ψv) =
      Real.cos (angle_to P arc.start ψv arc.direction) := by
    have hh := (cos_angle_to_sub P hpi hflr arc.start arc.start ψv arc.direction hdir).symm
    rw [angle_to_self P hpi hflr] at hh
    rw [hh, zero_sub, Real.cos_neg]
  have hce : Real.cos (arc.stop - ψv) =
      Real.cos (angle_to P arc.start arc.stop arc.direction -
        angle_to P arc.start ψv arc.direction) :=
    (cos_angle_to_sub P hpi hflr arc.start arc.stop ψv arc.direction hdir).symm
  have hflip : Real.cos (angle_to P arc.start φ arc.direction -
      angle_to P arc.start ψv arc.direction) =
      Real.cos (angle_to P arc.start ψv arc.direction -
        angle_to P arc.start φ arc.direction) := by
    rw [show angle_to P arc.start φ arc.direction -
        angle_to P arc.start ψv arc.direction =
        -(angle_to P arc.start ψv arc.direction -
          angle_to P arc.start φ arc.direction) by ring, Real.cos_neg]
  have hflip2 : Real.cos (angle_to P arc.start arc.stop arc.direction -
      angle_to P arc.start ψv arc.direction) =
      Real.cos (angle_to P arc.start ψv arc.direction -
        angle_to P arc.start arc.stop arc.direction) := by
    rw [show angle_to P arc.start arc.stop arc.direction -
        angle_to P arc.start ψv arc.direction =
        -(angle_to P arc.start ψv arc.direction -
          angle_to P arc.start arc.stop arc.direction) by ring, Real.cos_neg]
  cases h : arc.classify_point P p with
  | OnArc =>
    rw [hprojOn h, hdq]
    nlinarith [Real.cos_le_one (φ - ψv), mul_pos hrad hd]
  | Start =>
    obtain ⟨hA, hlt⟩ := (classify_point_iff_start P arc p).mp h
    rw [hatan] at hA
    have hEA : angle_to P arc.start arc.stop arc.direction ≤
        angle_to P arc.start ψv arc.direction := not_lt.mp hA
    have hkey := cos_le_max_endpoints
      (angle_to P arc.start ψv arc.direction -
        angle_to P arc.start arc.stop arc.direction)
      (angle_to P arc.start ψv arc.direction)
      (angle_to P arc.start ψv arc.direction - angle_to P arc.start φ arc.direction)
      (by linarith)
      (by linarith [hφE])
      (by linarith [angle_to_nonneg P hpi hflr arc.start φ arc.direction])
      (angle_to_lt_two_pi P hpi hflr arc.start ψv arc.direction)
    have hproj : normSq (vsub (arc.project P p) p) =
        normSq (vsub p (point_at_angle P arc.circle arc.start)) := by
      simp only [Arc.project, h]
      exact normSq_vsub_comm _ _
    rw [hproj, hds, hdq, hcq, hflip, hcs]
    rw [hds, hde, hce, hflip2, hcs] at hlt
    rcases le_max_iff.mp hkey with hca | hcb
    · nlinarith [mul_pos hrad hd]
    · nlinarith [mul_pos hrad hd]
  | End =>
    obtain ⟨hA, hge⟩ := (classify_point_iff_end P arc p).mp h
    rw [hatan] at hA
    have hEA : angle_to P arc.start arc.stop arc.direction ≤
        angle_to P arc.start ψv arc.direction := not_lt.mp hA
    have hkey := cos_le_max_endpoints
      (angle_to P arc.start ψv arc.direction -
        angle_to P arc.start arc.stop arc.direction)
      (angle_to P arc.start ψv arc.direction)
      (angle_to P arc.start ψv arc.direction - angle_to P arc.start φ arc.direction)
      (by linarith)
      (by linarith [hφE])
      (by linarith [angle_to_nonneg P hpi hflr arc.start φ arc.direction])
      (angle_to_lt_two_pi P hpi hflr arc.start ψv arc.direction)
    have hproj : normSq (vsub (arc.project P p) p) =
        normSq (vsub p (point_at_angle P arc.circle arc.stop)) := by
      simp only [Arc.project, h]
      exact normSq_vsub_comm _ _
    rw [hproj, hde, hdq, hcq, hflip, hce, hflip2]
    rw [hds, hde, hce, hflip2, hcs] at hge
    rcases le_max_iff.mp hkey with hca | hcb
    · nlinarith [mul_pos hrad hd]
    · nlinarith [mul_pos hrad hd]

/-- Claim C3 (amended): for every non-empty path whose arcs have positive
radius and a clockwise or counterclockwise direction, and every query point
not lying exactly at any arc's center, `Path::project` returns the projection
onto the first segment attaining the minimal squared distance (strict against
earlier segments, weak against later ones); that point lies on the chosen
segment and its distance to the query is minimal over all points of all
segments of the path. -/
theorem path_project_minimality (P : Prims ℝ) (hP : RealPrims P) (path : Path ℝ)
    (p : Vec2 ℝ) (hne : path.segments ≠ [])
    (harc : ∀ a : Arc ℝ, PathSegment.arc a ∈ path.segments →
      0 < a.circle.radius ∧ a.direction ≠ Direction.Colinear ∧
        ¬((vsub p a.circle.center).1 = 0 ∧ (vsub p a.circle.center).2 = 0)) :
    ∃ pre seg post,
      path.segments = pre ++ seg :: post ∧
      (∀ s' ∈ pre, normSq (vsub (PathSegment.project P seg p) p) <
        normSq (vsub (PathSegment.project P s' p) p)) ∧
      (∀ s' ∈ post, normSq (vsub (PathSegment.project P seg p) p) ≤
        normSq (vsub (PathSegment.project P s' p) p)) ∧
      Path.project P path p = some (PathSegment.project P seg p) ∧
      PathSegment.containsPt P seg (PathSegment.project P seg p) ∧
      (∀ s' ∈ path.segments, ∀ x : Vec2 ℝ, PathSegment.containsPt P s' x →
        normSq (vsub (PathSegment.project P seg p) p) ≤ normSq (vsub x p)) := by
  obtain ⟨pre, seg, post, hdec, hstrict, hweak, hproj, -⟩ := path_selection P path p hne
  have hsegmem : seg ∈ path.segments := by
    rw [hdec]
    exact List.mem_append_right _ (List.mem_cons_self _ _)
  have seg_contains : ∀ s, s ∈ path.segments →
      PathSegment.containsPt P s (PathSegment.project P s p) := by
    intro s hs
    cases s with
    | line l => exact line_project_contains l p
    | arc a =>
      obtain ⟨-, -, hc⟩ := harc a hs
      exact arc_project_contains P hP a p hc
  have seg_nearest : ∀ s, s ∈ path.segments → ∀ x, PathSegment.containsPt P s x →
      normSq (vsub (PathSegment.project P s p) p) ≤ normSq (vsub x p) := by
    intro s hs x hx
    cases s with
    | line l => exact line_project_nearest l p x hx
    | arc a =>
      obtain ⟨hr, hdi, hc⟩ := harc a hs
      exact arc_project_nearest P hP a p x hr hdi hc hx
  refine ⟨pre, seg, post, hdec, hstrict, hweak, hproj, seg_contains seg hsegmem, ?_⟩
  intro s' hs' x hx
  have h2 := seg_nearest s' hs' x hx
  have h1 : normSq (vsub (PathSegment.project P seg p) p) ≤
      normSq (vsub (PathSegment.project P s' p) p) := by
    rw [hdec] at hs'
    rcases List.mem_append.mp hs' with hpre | hrest
    · exact le_of_lt (hstrict _ hpre)
    · rcases List.mem_cons.mp hrest with heq | hpost
      · rw [heq]
      · exact hweak _ hpost
  linarith

/-- Claim C3 witness: projection minimality on a concrete one-segment path
(the unit horizontal segment) for the query `(0, 1)`. -/
theorem path_project_minimality_witness :
    ((Path.mk [PathSegment.line ⟨(0, 0), (1, 0)⟩] : Path ℝ).segments ≠ []) ∧
      ∃ pre seg post,
        (Path.mk [PathSegment.line ⟨(0, 0), (1, 0)⟩] : Path ℝ).segments =
          pre ++ seg :: post ∧
        (∀ s' ∈ pre, normSq (vsub (PathSegment.project
            (⟨Real.pi, Real.cos, Real.sin, Real.sqrt,
              fun y x => Complex.arg ⟨x, y⟩, fun x => ⌊x⌋⟩ : Prims ℝ) seg
            ((0, 1) : Vec2 ℝ)) ((0, 1) : Vec2 ℝ)) <
          normSq (vsub (PathSegment.project
            (⟨Real.pi, Real.cos, Real.sin, Real.sqrt,
              fun y x => Complex.arg ⟨x, y⟩, fun x => ⌊x⌋⟩ : Prims ℝ) s'
            ((0, 1) : Vec2 ℝ)) ((0, 1) : Vec2 ℝ))) ∧
        (∀ s' ∈ post, normSq (vsub (PathSegment.project
            (⟨Real.pi, Real.cos, Real.sin, Real.sqrt,
              fun y x => Complex.arg ⟨x, y⟩, fun x => ⌊x⌋⟩ : Prims ℝ) seg
            ((0, 1) : Vec2 ℝ)) ((0, 1) : Vec2 ℝ)) ≤
          normSq (vsub (PathSegment.project
            (⟨Real.pi, Real.cos, Real.sin, Real.sqrt,
              fun y x => Complex.arg ⟨x, y⟩, fun x => ⌊x⌋⟩ : Prims ℝ) s'
            ((0, 1) : Vec2 ℝ)) ((0, 1) : Vec2 ℝ))) ∧
        Path.project (⟨Real.pi, Real.cos, Real.sin, Real.sqrt,
            fun y x => Complex.arg ⟨x, y⟩, fun x => ⌊x⌋⟩ : Prims ℝ)
          (Path.mk [PathSegment.line ⟨(0, 0), (1, 0)⟩]) ((0, 1) : Vec2 ℝ) =
          some (PathSegment.project (⟨Real.pi, Real.cos, Real.sin, Real.sqrt,
            fun y x => Complex.arg ⟨x, y⟩, fun x => ⌊x⌋⟩ : Prims ℝ) seg
            ((0, 1) : Vec2 ℝ)) ∧
        PathSegment.containsPt (⟨Real.pi, Real.cos, Real.sin, Real.sqrt,
            fun y x => Complex.arg ⟨x, y⟩, fun x => ⌊x⌋⟩ : Prims ℝ) seg
          (PathSegment.project (⟨Real.pi, Real.cos, Real.sin, Real.sqrt,
            fun y x => Complex.arg ⟨x, y⟩, fun x => ⌊x⌋⟩ : Prims ℝ) seg
            ((0, 1) : Vec2 ℝ)) ∧
        (∀ s' ∈ (Path.mk [PathSegment.line ⟨(0, 0), (1, 0)⟩] : Path ℝ).segments,
          ∀ x : Vec2 ℝ, PathSegment.containsPt (⟨Real.pi, Real.cos, Real.sin,
              Real.sqrt, fun y x => Complex.arg ⟨x, y⟩, fun x => ⌊x⌋⟩ : Prims ℝ) s' x →
            normSq (vsub (PathSegment.project (⟨Real.pi, Real.cos, Real.sin,
              Real.sqrt, fun y x => Complex.arg ⟨x, y⟩, fun x => ⌊x⌋⟩ : Prims ℝ) seg
              ((0, 1) : Vec2 ℝ)) ((0, 1) : Vec2 ℝ)) ≤ normSq (vsub x ((0, 1) : Vec2 ℝ))) := by
  refine ⟨by simp, ?_⟩
  exact path_project_minimality
    (⟨Real.pi, Real.cos, Real.sin, Real.sqrt,
      fun y x => Complex.arg ⟨x, y⟩, fun x => ⌊x⌋⟩ : Prims ℝ)
    ⟨rfl, rfl, rfl, rfl, fun _ _ => rfl, fun _ => rfl⟩
    (Path.mk [PathSegment.line ⟨(0, 0), (1, 0)⟩]) ((0, 1) : Vec2 ℝ)
    (by simp)
    (by
      intro a ha
      simp at ha)

/-- Claim C3 counterexample: for the single-arc path on the unit circle from
angle `0` to `π/2` (counterclockwise) and the query exactly at the arc's
center, `Path::project` returns the center itself — a point on no segment of
the path — so the claim fails at this input. -/
theorem path_project_center_counterexample :
    Path.project (⟨Real.pi, Real.cos, Real.sin, Real.sqrt,
        fun y x => Complex.arg ⟨x, y⟩, fun x => ⌊x⌋⟩ : Prims ℝ)
      (Path.mk [PathSegment.arc ⟨⟨(0, 0), 1⟩, 0, Real.pi / 2,
        Direction.Counterclockwise⟩]) ((0, 0) : Vec2 ℝ) = some ((0, 0) : Vec2 ℝ) ∧
    ∀ x : Vec2 ℝ, PathSegment.containsPt (⟨Real.pi, Real.cos, Real.sin, Real.sqrt,
        fun y x => Complex.arg ⟨x, y⟩, fun x => ⌊x⌋⟩ : Prims ℝ)
      (PathSegment.arc ⟨⟨(0, 0), 1⟩, 0, Real.pi / 2, Direction.Counterclockwise⟩) x →
      x ≠ ((0, 0) : Vec2 ℝ) := by
  constructor
  · have harg : Complex.arg ⟨(0 : ℝ) - 0, (0 : ℝ) - 0⟩ = 0 := by
      rw [show (⟨(0 : ℝ) - 0, (0 : ℝ) - 0⟩ : ℂ) = 0 by
        apply Complex.ext <;> simp]
      exact Complex.arg_zero
    have hA : normalizedAngle (⟨Real.pi, Real.cos, Real.sin, Real.sqrt,
        fun y x => Complex.arg ⟨x, y⟩, fun x => ⌊x⌋⟩ : Prims ℝ) ((0 : ℝ) - 0) = 0 := by
      rw [normalizedAngle_eq_fract _ rfl (fun _ => rfl)]
      norm_num
    have hE : normalizedAngle (⟨Real.pi, Real.cos, Real.sin, Real.sqrt,
        fun y x => Complex.arg ⟨x, y⟩, fun x => ⌊x⌋⟩ : Prims ℝ)
        ((Real.pi / 2 - 0) * 1) = Real.pi / 2 := by
      rw [normalizedAngle_eq_fract _ rfl (fun _ => rfl)]
      have hdiv : (Real.pi / 2 - 0) * 1 / (2 * Real.pi) = (1 / 4 : ℝ) := by
        have := Real.pi_ne_zero
        field_simp
        ring
      rw [hdiv, Int.fract_eq_self.mpr (by norm_num)]
      ring
    have hclass : Arc.classify_point (⟨Real.pi, Real.cos, Real.sin, Real.sqrt,
        fun y x => Complex.arg ⟨x, y⟩, fun x => ⌊x⌋⟩ : Prims ℝ)
        ⟨⟨(0, 0), 1⟩, 0, Real.pi / 2, Direction.Counterclockwise⟩ ((0, 0) : Vec2 ℝ) =
        ArcProjectionKind.OnArc := by
      rw [classify_point_iff_onArc]
      unfold angle_to Direction.angle_sign
      simp only [vsub, harg]
      rw [show ((0 : ℝ) - 0) * 1 = (0 : ℝ) - 0 by ring, hA, hE]
      positivity
    unfold Path.project
    rw [List.map_cons, List.map_nil, minByKeyFirst]
    simp only [List.foldl_nil, Option.map_some]
    simp only [PathSegment.project, Arc.project, hclass]
    unfold normalize vsub normSq vadd smul
    norm_num
  · rintro x ⟨φ, -, hxe⟩ hx0
    rw [hx0] at hxe
    have h1 : (0 : ℝ) = 0 + Real.cos φ * 1 := congrArg Prod.fst hxe
    have h2 : (0 : ℝ) = 0 + Real.sin φ * 1 := congrArg Prod.snd hxe
    have := Real.sin_sq_add_cos_sq φ
    rw [show Real.cos φ = 0 by linarith, show Real.sin φ = 0 by linarith] at this
    norm_num at this

theorem center_to_point_at_angle (P : Prims ℝ) (hcos : P.cos = Real.cos)
    (hsin : P.sin = Real.sin) (c : Circle ℝ) (θ : ℝ) :
    normSq (vsub c.center (point_at_angle P c θ)) = c.radius ^ 2 := by
  unfold normSq vsub point_at_angle vadd
  rw [hcos, hsin]
  linear_combination (c.radius ^ 2) * Real.sin_sq_add_cos_sq θ

theorem line_project_degenerate (q0 p : Vec2 K) :
    (LineSegment.mk q0 q0).project p = q0 := by
  obtain ⟨a, b⟩ := q0
  unfold LineSegment.project
  simp only [vsub, vadd, smul, dot, normSq]
  rw [Prod.mk.injEq]
  constructor <;> · simp [sub_self]

/-- Claim C8 (amended): numeric degeneracy is handled without division blowup
in the real model (`x/0 = 0`): projecting onto a line segment with
`start = end` returns `start`; but a query exactly at an arc's center does
not project to the arc's start point — when the reference angle `0`
(`atan2(0,0) = 0`) falls outside the sweep the endpoint distances tie and the
code returns the END point, and when it falls inside the sweep the projection
degenerates to the center itself. -/
theorem degenerate_projection_spec (P : Prims ℝ) (hP : RealPrims P) (arc : Arc ℝ)
    (q0 p : Vec2 ℝ) :
    ((LineSegment.mk q0 q0).project p = q0) ∧
      (¬ angle_to P arc.start 0 arc.direction <
          angle_to P arc.start arc.stop arc.direction →
        arc.project P arc.circle.center = point_at_angle P arc.circle arc.stop) ∧
      (angle_to P arc.start 0 arc.direction <
          angle_to P arc.start arc.stop arc.direction →
        arc.project P arc.circle.center = arc.circle.center) := by
  obtain ⟨hpi, hcos, hsin, hsqrt, hat, hflr⟩ := hP
  have harg0 : P.atan2 (vsub arc.circle.center arc.circle.center).2
      (vsub arc.circle.center arc.circle.center).1 = 0 := by
    rw [hat]
    rw [show (⟨(vsub arc.circle.center arc.circle.center).1,
        (vsub arc.circle.center arc.circle.center).2⟩ : ℂ) = 0 by
      apply Complex.ext <;> simp [vsub]]
    exact Complex.arg_zero
  refine ⟨line_project_degenerate q0 p, ?_, ?_⟩
  · intro hout
    have hclass : arc.classify_point P arc.circle.center = ArcProjectionKind.End := by
      rw [classify_point_iff_end]
      constructor
      · rw [harg0]
        exact hout
      · rw [center_to_point_at_angle P hcos hsin,
          center_to_point_at_angle P hcos hsin]
        exact lt_irrefl _
    simp only [Arc.project, hclass]
  · intro hin
    have hclass : arc.classify_point P arc.circle.center =
        ArcProjectionKind.OnArc := by
      rw [classify_point_iff_onArc, harg0]
      exact hin
    simp only [Arc.project, hclass]
    unfold normalize
    simp only [vsub, vadd, smul, sub_self]
    apply Prod.ext <;> simp

/-- Claim C8 witness: the degenerate-projection statement at a concrete arc
(unit circle, `π/2` to `π`, counterclockwise) with the reference angle
outside the sweep, and a concrete degenerate segment. -/
theorem degenerate_projection_spec_witness :
    ((LineSegment.mk ((2, 3) : Vec2 ℝ) (2, 3)).project ((5, 7) : Vec2 ℝ) = (2, 3)) ∧
      (¬ angle_to (⟨Real.pi, Real.cos, Real.sin, Real.sqrt,
            fun y x => Complex.arg ⟨x, y⟩, fun x => ⌊x⌋⟩ : Prims ℝ)
          (Real.pi / 2) 0 Direction.Counterclockwise <
          angle_to (⟨Real.pi, Real.cos, Real.sin, Real.sqrt,
            fun y x => Complex.arg ⟨x, y⟩, fun x => ⌊x⌋⟩ : Prims ℝ)
          (Real.pi / 2) Real.pi Direction.Counterclockwise →
        Arc.project (⟨Real.pi, Real.cos, Real.sin, Real.sqrt,
            fun y x => Complex.arg ⟨x, y⟩, fun x => ⌊x⌋⟩ : Prims ℝ)
          ⟨⟨(0, 0), 1⟩, Real.pi / 2, Real.pi, Direction.Counterclockwise⟩
          ((0, 0) : Vec2 ℝ) =
        point_at_angle (⟨Real.pi, Real.cos, Real.sin, Real.sqrt,
            fun y x => Complex.arg ⟨x, y⟩, fun x => ⌊x⌋⟩ : Prims ℝ)
          ⟨(0, 0), 1⟩ Real.pi) := by
  obtain ⟨h1, h2, -⟩ := degenerate_projection_spec
    (⟨Real.pi, Real.cos, Real.sin, Real.sqrt,
      fun y x => Complex.arg ⟨x, y⟩, fun x => ⌊x⌋⟩ : Prims ℝ)
    ⟨rfl, rfl, rfl, rfl, fun _ _ => rfl, fun _ => rfl⟩
    ⟨⟨(0, 0), 1⟩, Real.pi / 2, Real.pi, Direction.Counterclockwise⟩
    ((2, 3) : Vec2 ℝ) ((5, 7) : Vec2 ℝ)
  exact ⟨h1, h2⟩

/-- Claim C8 counterexample: for the counterclockwise unit arc from `π/2`
to `π` centered at the origin, projecting the exact center returns the END
point `(−1, 0)`, not the start point `(0, 1)` the claim demands. -/
theorem arc_center_projection_counterexample :
    Arc.project (⟨Real.pi, Real.cos, Real.sin, Real.sqrt,
        fun y x => Complex.arg ⟨x, y⟩, fun x => ⌊x⌋⟩ : Prims ℝ)
      ⟨⟨(0, 0), 1⟩, Real.pi / 2, Real.pi, Direction.Counterclockwise⟩
      ((0, 0) : Vec2 ℝ) = ((-1, 0) : Vec2 ℝ) ∧
    point_at_angle (⟨Real.pi, Real.cos, Real.sin, Real.sqrt,
        fun y x => Complex.arg ⟨x, y⟩, fun x => ⌊x⌋⟩ : Prims ℝ)
      ⟨(0, 0), 1⟩ (Real.pi / 2) = ((0, 1) : Vec2 ℝ) ∧
    ((-1, 0) : Vec2 ℝ) ≠ ((0, 1) : Vec2 ℝ) := by
  have harg0 : Complex.arg ⟨(0 : ℝ) - 0, (0 : ℝ) - 0⟩ = 0 := by
    rw [show (⟨(0 : ℝ) - 0, (0 : ℝ) - 0⟩ : ℂ) = 0 by
      apply Complex.ext <;> simp]
    exact Complex.arg_zero
  have hA : normalizedAngle (⟨Real.pi, Real.cos, Real.sin, Real.sqrt,
      fun y x => Complex.arg ⟨x, y⟩, fun x => ⌊x⌋⟩ : Prims ℝ)
      ((0 : ℝ) - Real.pi / 2) = 3 * Real.pi / 2 := by
    rw [normalizedAngle_eq_fract _ rfl (fun _ => rfl)]
    have hdiv : ((0 : ℝ) - Real.pi / 2) / (2 * Real.pi) = -(1 / 4 : ℝ) := by
      have := Real.pi_ne_zero
      field_simp
      ring
    rw [hdiv]
    have hfr : Int.fract (-(1 / 4 : ℝ)) = 3 / 4 := by
      have hfl : ⌊(-(1 / 4 : ℝ))⌋ = -1 := by
        rw [Int.floor_eq_iff]
        norm_num
      rw [Int.fract, hfl]
      norm_num
    rw [hfr]
    ring
  have hE : normalizedAngle (⟨Real.pi, Real.cos, Real.sin, Real.sqrt,
      fun y x => Complex.arg ⟨x, y⟩, fun x => ⌊x⌋⟩ : Prims ℝ)
      (Real.pi - Real.pi / 2) = Real.pi / 2 := by
    rw [normalizedAngle_eq_fract _ rfl (fun _ => rfl)]
    have hdiv : (Real.pi - Real.pi / 2) / (2 * Real.pi) = (1 / 4 : ℝ) := by
      have := Real.pi_ne_zero
      field_simp
      ring
    rw [hdiv, Int.fract_eq_self.mpr (by norm_num)]
    ring
  have htie1 : normSq (vsub ((0, 0) : Vec2 ℝ)
      (point_at_angle (⟨Real.pi, Real.cos, Real.sin, Real.sqrt,
        fun y x => Complex.arg ⟨x, y⟩, fun x => ⌊x⌋⟩ : Prims ℝ)
        ⟨(0, 0), 1⟩ (Real.pi / 2))) = 1 := by
    unfold normSq vsub point_at_angle vadd
    simp only
    linear_combination Real.sin_sq_add_cos_sq (Real.pi / 2)
  have htie2 : normSq (vsub ((0, 0) : Vec2 ℝ)
      (point_at_angle (⟨Real.pi, Real.cos, Real.sin, Real.sqrt,
        fun y x => Complex.arg ⟨x, y⟩, fun x => ⌊x⌋⟩ : Prims ℝ)
        ⟨(0, 0), 1⟩ Real.pi)) = 1 := by
    unfold normSq vsub point_at_angle vadd
    simp only
    linear_combination Real.sin_sq_add_cos_sq Real.pi
  have hclass : Arc.classify_point (⟨Real.pi, Real.cos, Real.sin, Real.sqrt,
      fun y x => Complex.arg ⟨x, y⟩, fun x => ⌊x⌋⟩ : Prims ℝ)
      ⟨⟨(0, 0), 1⟩, Real.pi / 2, Real.pi, Direction.Counterclockwise⟩
      ((0, 0) : Vec2 ℝ) = ArcProjectionKind.End := by
    unfold Arc.classify_point angle_to Direction.angle_sign
    simp only [vsub, harg0, mul_one]
    rw [hA, hE]
    rw [if_neg (by nlinarith [Real.pi_pos])]
    have htie1' := htie1
    have htie2' := htie2
    simp only [vsub] at htie1' htie2'
    simp only [htie1', htie2']
    rw [if_neg (lt_irrefl _)]
  refine ⟨?_, ?_, ?_⟩
  · simp only [Arc.project, hclass]
    unfold point_at_angle vadd
    rw [Prod.mk.injEq]
    constructor
    · show (0 : ℝ) + Real.cos Real.pi * 1 = -1
      rw [Real.cos_pi]
      ring
    · show (0 : ℝ) + Real.sin Real.pi * 1 = 0
      rw [Real.sin_pi]
      ring
  · unfold point_at_angle vadd
    rw [Prod.mk.injEq]
    constructor
    · show (0 : ℝ) + Real.cos (Real.pi / 2) * 1 = 0
      rw [Real.cos_pi_div_two]
      ring
    · show (0 : ℝ) + Real.sin (Real.pi / 2) * 1 = 1
      rw [Real.sin_pi_div_two]
      ring
  · intro hcontra
    have h1 : (-1 : ℝ) = 0 := congrArg Prod.fst hcontra
    norm_num at h1

end Hulk
